import Mathlib

/-!
# Verification of the MCP Tool Filter scoring, caching and selection core

Shallow embedding of the repository's core (src/utils.ts and the
`MCPToolFilter` class): vector normalization and similarity, token-budget
context building, the min-heap based partial top-k sort, the LRU context
cache, the selector, and the filter orchestrator.

Conventions of the embedding:
* JavaScript `number` values are modelled exactly: indices and counts as
  `Nat`/`Int`, scores over a `LinearOrder`/`LinearOrderedField`, and
  floating-point vector components as real numbers (`ℝ`), so floating-point
  rounding is abstracted to exact arithmetic.
* `Float32Array` becomes `List ℝ` (or `List R` in the generic setting).
* A JavaScript `Map` is an insertion-ordered association list, oldest first.
* Exceptions become `Except`.
-/

set_option autoImplicit false
set_option linter.unusedSectionVars false

namespace MCPFilter

/-! ## Vector ops: `normalizeVector` and `dotProduct` (src/src/utils.ts 9-62) -/

/-- Accumulated sum of squares, following the magnitude loop of
`normalizeVector` (`magnitude += vec[i] * vec[i]`). -/
def sumSq (v : List ℝ) : ℝ :=
  v.foldl (fun acc x => acc + x * x) 0

/-- Euclidean magnitude `Math.sqrt(magnitude)` of `normalizeVector`. -/
noncomputable def magnitude (v : List ℝ) : ℝ :=
  Real.sqrt (sumSq v)

/-- `normalizeVector(vec, inPlace)` from src/src/utils.ts lines 9-32.

The source mutates the input buffer when `inPlace` is true; the pure model
returns a pair `(returned vector, final contents of the input buffer)` so
that the aliasing behaviour is observable: when the magnitude is zero the
source returns the input buffer itself unchanged; with `inPlace = true` the
returned array and the input buffer are the same (normalized) buffer; with
`inPlace = false` the input buffer keeps its original contents. -/
noncomputable def normalizeVector (vec : List ℝ) (inPlace : Bool) : List ℝ × List ℝ :=
  let mag := magnitude vec
  if mag = 0 then (vec, vec)
  else
    let normalized := vec.map (fun x => x / mag)
    if inPlace then (normalized, normalized) else (normalized, vec)

/-- Error raised by `dotProduct` when the vectors differ in length
(`throw new Error('Vectors must have the same length')`). -/
inductive VecError : Type
  | dimMismatch : VecError
deriving DecidableEq

/-- The reference (plain) dot product `sum over i of a[i]*b[i]`, stated from
the claim's words for comparison with the unrolled implementation. -/
def dotSpec {R : Type} [CommRing R] (a b : List R) : R :=
  ∑ i in Finset.range a.length, a.getD i 0 * b.getD i 0

/-- `dotProduct(a, b)` from src/src/utils.ts lines 38-62: length check, then
a four-at-a-time unrolled accumulation over `i < limit` (with
`limit = len - len % 4`, so `limit / 4` full chunks) followed by a remainder
loop over `limit ≤ i < len`. -/
def dotProduct {R : Type} [CommRing R] (a b : List R) : Except VecError R :=
  if a.length ≠ b.length then Except.error VecError.dimMismatch
  else
    let len := a.length
    let remainder := len % 4
    let limit := len - remainder
    let g : ℕ → R := fun i => a.getD i 0 * b.getD i 0
    Except.ok
      ((∑ j in Finset.range (limit / 4),
          (g (4 * j) + g (4 * j + 1) + g (4 * j + 2) + g (4 * j + 3))) +
        ∑ i in Finset.Ico limit len, g i)

/-! ## Context building (src/src/utils.ts 99-142) -/

/-- The `role` field of a `ChatMessage` (`'system' | 'user' | 'assistant' | 'tool'`). -/
inductive Role : Type
  | system : Role
  | user : Role
  | assistant : Role
  | tool : Role
deriving DecidableEq, Inhabited

/-- A chat message `{role, content}`. -/
structure ChatMessage : Type where
  role : Role
  content : String
deriving DecidableEq, Inhabited

/-- `FilterInput = ChatMessage[] | string`. -/
inductive FilterInput : Type
  | raw : String → FilterInput
  | messages : List ChatMessage → FilterInput
deriving DecidableEq

/-- Index of the last occurrence of `c` in `s` (JavaScript
`String.prototype.lastIndexOf`), `-1` when absent. -/
def lastIndexOfChar (s : String) (c : Char) : ℤ :=
  match s.toList.reverse.findIdx? (fun d => decide (d = c)) with
  | none => -1
  | some r => (s.length : ℤ) - 1 - (r : ℤ)

/-- `truncateToTokens(text, maxTokens)` from src/src/utils.ts lines 128-142.

The cut-at-word-boundary test in the source is
`lastSpace > estimatedChars * 0.8` over doubles; for the integer values
involved this is exactly the rational comparison
`5 * lastSpace > 4 * estimatedChars`, which is how it is modelled (the double
product `estimatedChars * 0.8` differs from the exact `4/5 * estimatedChars`
by far less than the gap to the nearest distinct integer for every
realistic `estimatedChars`). Character counting follows Lean `String.length`;
the source counts UTF-16 units, which agrees on the Basic Multilingual Plane. -/
def truncateToTokens (text : String) (maxTokens : ℕ) : String :=
  let estimatedChars := maxTokens * 4
  if text.length ≤ estimatedChars then text
  else
    let truncated := text.take estimatedChars
    let lastSpace := lastIndexOfChar truncated ' '
    let truncated2 :=
      if 4 * (estimatedChars : ℤ) < 5 * lastSpace then truncated.take lastSpace.toNat
      else truncated
    truncated2 ++ "..."

/-- JavaScript `l.slice(-m)` for a nonnegative integer `m`.  Note the evil
edge case: for `m = 0` the argument is `-0`, which is `0`, so `slice(-0)`
returns the whole array, not the empty suffix. -/
def jsSliceLast {α : Type} (l : List α) (m : ℕ) : List α :=
  if m = 0 then l else l.drop (l.length - m)

/-- `buildContextString(input, maxMessages, maxTokens)` from
src/src/utils.ts lines 99-122: raw strings are truncated directly; message
lists are filtered of `system` entries, sliced to the last `maxMessages`
via `slice(-maxMessages)`, rendered with prefix `User`/`Assistant`
(`msg.role === 'user' ? 'User' : 'Assistant'`), joined by blank lines and
truncated. -/
def buildContextString (input : FilterInput) (maxMessages : ℕ) (maxTokens : ℕ) : String :=
  match input with
  | FilterInput.raw s => truncateToTokens s maxTokens
  | FilterInput.messages msgs =>
    let relevantMessages := jsSliceLast (msgs.filter (fun m => decide (m.role ≠ Role.system))) maxMessages
    let contextParts := relevantMessages.map
      (fun m => (if m.role = Role.user then "User" else "Assistant") ++ ": " ++ m.content)
    truncateToTokens (String.intercalate "\n\n" contextParts) maxTokens

/-! Claim-side (spec-worded) context builder, used to state C9. -/

/-- The capitalized role name, as in the claim's reading of
`"<Role>: <content>"`. -/
def roleCapitalized : Role → String
  | Role.system => "System"
  | Role.user => "User"
  | Role.assistant => "Assistant"
  | Role.tool => "Tool"

/-- The last `m` elements of a list (the claim's "keep only the last
`contextMessages` remaining entries"). -/
def lastN {α : Type} (l : List α) (m : ℕ) : List α :=
  (l.reverse.take m).reverse

/-- C9's claimed behaviour of `buildContextString` on a message history,
stated from the claim's words: drop `system` entries, keep the last `m`
remaining entries in order, render each as `"<Role>: <content>"` with the
role as a capitalized prefix, join with blank lines, truncate. -/
def buildFromMessagesClaim (msgs : List ChatMessage) (m : ℕ) (maxTokens : ℕ) : String :=
  let kept := lastN (msgs.filter (fun x => decide (x.role ≠ Role.system))) m
  let parts := kept.map (fun x => roleCapitalized x.role ++ ": " ++ x.content)
  truncateToTokens (String.intercalate "\n\n" parts) maxTokens

/-- The amended rendering: `user` entries get prefix `User`, every other
non-`system` entry (including `tool`) gets prefix `Assistant`. -/
def buildFromMessagesAmended (msgs : List ChatMessage) (m : ℕ) (maxTokens : ℕ) : String :=
  let kept := lastN (msgs.filter (fun x => decide (x.role ≠ Role.system))) m
  let parts := kept.map
    (fun x => (if x.role = Role.user then "User" else "Assistant") ++ ": " ++ x.content)
  truncateToTokens (String.intercalate "\n\n" parts) maxTokens

/-! ## `hashString` (src/src/utils.ts 266-274) -/

/-- Coercion of an integer to a signed 32-bit value (the effect of
JavaScript `hash & hash` and of `<< 5` on an int32). -/
def toInt32 (x : ℤ) : ℤ :=
  (x + 2 ^ 31) % 2 ^ 32 - 2 ^ 31

/-- `hashString(str)` from src/src/utils.ts lines 266-274:
`hash = ((hash << 5) - hash) + charCode; hash = hash & hash`, folded over
the characters (`charCodeAt` returns UTF-16 units; this agrees with code
points on the Basic Multilingual Plane).  The final `hash.toString(36)`
base-36 rendering is injective on int32 values, so the model keys on the
integer itself. -/
def hashString (s : String) : ℤ :=
  s.toList.foldl (fun hash c => toInt32 (toInt32 (hash * 32) - hash + (c.toNat : ℤ))) 0

/-! ## `MinHeap` and `partialSort` (src/src/utils.ts 147-261)

The heap array `T[]` is a `List α` with the root at index 0.  The index
walks of `bubbleUp`/`bubbleDown` and the repeated popping of
`toSortedArray` are structural recursions on an explicit fuel argument;
every call site supplies fuel that is provably sufficient (`bubbleUp`
never takes more steps than its start index, `bubbleDown` and the popping
loop never take more steps than the array length). -/

section Heap

variable {α : Type} [Inhabited α] {R : Type} [LinearOrder R]

/-- Parent index `Math.floor((index - 1) / 2)` of the binary heap. -/
def parentIdx (i : ℕ) : ℕ := (i - 1) / 2

/-- Swap of two positions of the heap array
(`[this.heap[i], this.heap[j]] = [this.heap[j], this.heap[i]]`). -/
def swapL (l : List α) (i j : ℕ) : List α :=
  (l.set i (l.getD j default)).set j (l.getD i default)

/-- `bubbleUp(index)` from src/src/utils.ts lines 186-195: while the item
scores strictly below its parent, swap it with the parent.  The loop stops
when `scoreFunc(heap[index]) >= scoreFunc(heap[parentIndex])` or at the
root. -/
def bubbleUp (f : α → R) : ℕ → List α → ℕ → List α
  | 0, l, _ => l
  | fuel + 1, l, i =>
    if i = 0 then l
    else if f (l.getD (parentIdx i) default) ≤ f (l.getD i default) then l
    else bubbleUp f fuel (swapL l i (parentIdx i)) (parentIdx i)

/-- `push(item)`: append, then bubble up from the last index. -/
def heapPush (f : α → R) (l : List α) (x : α) : List α :=
  bubbleUp f l.length (l ++ [x]) l.length

/-- The `minIndex` after the left-child comparison of `bubbleDown`
(src/src/utils.ts lines 204-206). -/
def minIdx1 (f : α → R) (l : List α) (i : ℕ) : ℕ :=
  if 2 * i + 1 < l.length ∧ f (l.getD (2 * i + 1) default) < f (l.getD i default) then 2 * i + 1
  else i

/-- The `minIndex` after both child comparisons of `bubbleDown`
(src/src/utils.ts lines 204-209). -/
def minIdx2 (f : α → R) (l : List α) (i : ℕ) : ℕ :=
  if 2 * i + 2 < l.length ∧ f (l.getD (2 * i + 2) default) < f (l.getD (minIdx1 f l i) default)
  then 2 * i + 2
  else minIdx1 f l i

/-- `bubbleDown(index)` from src/src/utils.ts lines 197-216: find the
smallest of the node and its (up to two) children, swap down, repeat. -/
def bubbleDown (f : α → R) : ℕ → List α → ℕ → List α
  | 0, l, _ => l
  | fuel + 1, l, i =>
    if minIdx2 f l i = i then l
    else bubbleDown f fuel (swapL l i (minIdx2 f l i)) (minIdx2 f l i)

/-- The array after `this.heap[0] = this.heap.pop()!` in `pop()`: the last
element removed and written over the root. -/
def popShift (l : List α) : List α :=
  (l.dropLast).set 0 (l.getD (l.length - 1) default)

/-- `pop()` from src/src/utils.ts lines 168-176: empty heap yields nothing;
a singleton pops its only element; otherwise the root is returned, the
last element moves to the root and bubbles down. -/
def heapPop (f : α → R) (l : List α) : Option (α × List α) :=
  if l.length = 0 then none
  else if l.length = 1 then some (l.getD 0 default, [])
  else some (l.getD 0 default, bubbleDown f (popShift l).length (popShift l) 0)

/-- The sequence of elements obtained by repeatedly popping (ascending by
score for a well-formed heap). -/
def popList (f : α → R) : ℕ → List α → List α
  | 0, _ => []
  | fuel + 1, l =>
    match heapPop f l with
    | none => []
    | some (x, l2) => x :: popList f fuel l2

/-- `toSortedArray()` from src/src/utils.ts lines 178-184: repeatedly pop
and `unshift` into the result, so the result is the pop order reversed
(descending by score). -/
def toSortedArray (f : α → R) (l : List α) : List α :=
  (popList f l.length l).reverse

/-- One iteration of the top-k selection loop of `partialSort`
(src/src/utils.ts lines 246-257): push while below capacity `k`, otherwise
replace the minimum when the new item scores strictly higher.  The
`heapPop` fallback on an empty heap is unreachable at every call site
(there `1 ≤ k`, so a full heap is nonempty). -/
def heapStep (f : α → R) (k : ℕ) (l : List α) (x : α) : List α :=
  if l.length < k then heapPush f l x
  else if f (l.getD 0 default) < f x then
    match heapPop f l with
    | some (_, l2) => heapPush f l2 x
    | none => l
  else l

/-- The whole heap phase of `partialSort`: fold the items through
`heapStep` starting from an empty heap, then extract in descending order. -/
def heapSelectPolicy (f : α → R) (k : ℕ) (items : List α) : List α :=
  toSortedArray f (items.foldl (heapStep f k) [])

/-- Stable insertion of `x` into a list sorted by descending score: `x`
goes before the first element scoring strictly below it, hence after all
earlier elements with an equal score. -/
def insertDesc (f : α → R) (x : α) : List α → List α
  | [] => [x]
  | y :: ys => if f y < f x then x :: y :: ys else y :: insertDesc f x ys

/-- The comparison-sort phase of `partialSort`:
`items.sort((a, b) => scoreFunc(b) - scoreFunc(a))`, i.e. the stable
(ECMAScript 2019 `Array.prototype.sort`) sort by descending score,
modelled as a stable insertion sort. -/
def sortDesc (f : α → R) (items : List α) : List α :=
  items.foldl (fun acc x => insertDesc f x acc) []

/-- The full-comparison-sort selection policy: sort descending, take the
first `k` (`sort(...).slice(0, k)`). -/
def fullSortPolicy (f : α → R) (k : ℤ) (items : List α) : List α :=
  (sortDesc f items).take k.toNat

/-- `partialSort(items, k, scoreFunc)` from src/src/utils.ts lines 223-261:
`k <= 0` yields `[]`; `k >= items.length` sorts everything; below the size
threshold 500 the sort-and-slice policy runs; otherwise the bounded
min-heap policy runs. -/
def partSort (items : List α) (k : ℤ) (f : α → R) : List α :=
  if k ≤ 0 then []
  else if (items.length : ℤ) ≤ k then sortDesc f items
  else if items.length < 500 then (sortDesc f items).take k.toNat
  else heapSelectPolicy f k.toNat items

/-- The binary-heap order property of the array: every non-root node
scores at least its parent (a min-heap on `f`). -/
def IsHeap (f : α → R) (l : List α) : Prop :=
  ∀ j, 0 < j → j < l.length → f (l.getD (parentIdx j) default) ≤ f (l.getD j default)

/-- Invariant of the `bubbleUp` walk at index `i`: the heap property holds
at every edge not ending in `i`, and the children of `i` (if any) score at
least the parent of `i` (so that swapping `i` upward cannot break the
edges below it). -/
def UpInv (f : α → R) (l : List α) (i : ℕ) : Prop :=
  (∀ j, 0 < j → j < l.length → j ≠ i → f (l.getD (parentIdx j) default) ≤ f (l.getD j default)) ∧
  (0 < i → ∀ j, j < l.length → parentIdx j = i →
    f (l.getD (parentIdx i) default) ≤ f (l.getD j default))

/-- Invariant of the `bubbleDown` walk at index `i`: the heap property
holds at every edge not starting in `i`, and the children of `i` (if any)
score at least the parent of `i`. -/
def DownInv (f : α → R) (l : List α) (i : ℕ) : Prop :=
  (∀ j, 0 < j → j < l.length → parentIdx j ≠ i →
    f (l.getD (parentIdx j) default) ≤ f (l.getD j default)) ∧
  (0 < i → ∀ j, j < l.length → parentIdx j = i →
    f (l.getD (parentIdx i) default) ≤ f (l.getD j default))

/-- Invariant of the top-k selection loop of `partialSort` after the
prefix `pre` of the input has been folded in: the heap `h` is a
well-formed min-heap holding `min k |pre|` pairwise-distinct elements of
`pre`, and every element of `pre` left out scores strictly below every
element kept (under pairwise-distinct scores). -/
def TopKInv (f : α → R) (k : ℕ) (pre h : List α) : Prop :=
  IsHeap f h ∧ h.Nodup ∧ (∀ y ∈ h, y ∈ pre) ∧ h.length = min k pre.length ∧
  ∀ x ∈ pre, x ∉ h → ∀ y ∈ h, f x < f y

end Heap

/-! ## `LRUCache` (src/src/utils.ts 335-385)

A JavaScript `Map` is modelled as an association list in insertion order
(head = oldest = first key of the iteration order). -/

section LRU

variable {K V : Type} [DecidableEq K]

/-- `Map.prototype.get`-style first-match lookup. -/
def findVal (l : List (K × V)) (k : K) : Option V :=
  (l.find? (fun e => decide (e.fst = k))).map Prod.snd

/-- `Map.prototype.delete k`: remove the entry of key `k`. -/
def eraseKey (l : List (K × V)) (k : K) : List (K × V) :=
  l.filter (fun e => decide (e.fst ≠ k))

/-- The `LRUCache<K, V>` state: entries in recency order (least recently
used first, matching `Map` insertion order under the class discipline of
delete-and-reinsert) plus the configured capacity. -/
structure LRU (K V : Type) : Type where
  entries : List (K × V)
  maxSize : ℕ

/-- `LRUCache.get(key)` (src/src/utils.ts 344-354): a miss leaves the map
unchanged; a hit deletes and re-inserts the entry at the end (most
recently used) and returns the value. -/
def lruGet (c : LRU K V) (k : K) : Option V × LRU K V :=
  match findVal c.entries k with
  | none => (none, c)
  | some v => (some v, ⟨eraseKey c.entries k ++ [(k, v)], c.maxSize⟩)

/-- `LRUCache.set(key, value)` (src/src/utils.ts 356-372): delete the key
if present; if still at capacity, delete the first (least recently used)
key when one exists; append as most recently used. -/
def lruSet (c : LRU K V) (k : K) (v : V) : LRU K V :=
  let e1 := if (findVal c.entries k).isSome then eraseKey c.entries k else c.entries
  let e2 := if c.maxSize ≤ e1.length then e1.drop 1 else e1
  ⟨e2 ++ [(k, v)], c.maxSize⟩

/-- `LRUCache.has(key)`. -/
def lruHas (c : LRU K V) (k : K) : Bool :=
  (findVal c.entries k).isSome

/-- `LRUCache.clear()`. -/
def lruClear (c : LRU K V) : LRU K V :=
  ⟨[], c.maxSize⟩

/-- `LRUCache.size`. -/
def lruSize (c : LRU K V) : ℕ :=
  c.entries.length

/-- An empty cache of capacity `C` (`new LRUCache(maxSize)`). -/
def emptyLRU (C : ℕ) : LRU K V :=
  ⟨[], C⟩

/-- One client operation on the cache. -/
inductive CacheOp (K V : Type) : Type
  | get : K → CacheOp K V
  | set : K → V → CacheOp K V
  | has : K → CacheOp K V
  | clear : CacheOp K V

/-- State transition of a single operation (`has` does not mutate). -/
def runOp (c : LRU K V) : CacheOp K V → LRU K V
  | CacheOp.get k => (lruGet c k).snd
  | CacheOp.set k v => lruSet c k v
  | CacheOp.has _ => c
  | CacheOp.clear => lruClear c

/-- Run a sequence of operations. -/
def runOps (c : LRU K V) (ops : List (CacheOp K V)) : LRU K V :=
  ops.foldl runOp c

end LRU

/-! ## Tool types, selector and orchestrator (src/unnamed/part_002, class `MCPToolFilter`) -/

/-- `MCPTool` (src/unnamed/part_002 types): name, description, optional
keywords, optional category; the input schema is reduced to its list of
property names (the only part the core reads). -/
structure MCPTool : Type where
  name : String
  description : String
  keywords : Option (List String)
  category : Option String
  inputSchemaProps : Option (List String)
deriving DecidableEq, Inhabited

/-- `ToolWithMetadata` (src/src/utils.ts 279-284). -/
structure ToolWithMetadata : Type where
  serverId : String
  serverName : String
  tool : MCPTool
  description : String
deriving DecidableEq, Inhabited

/-- `ScoredTool` with a generic score type (`number` in the source). -/
structure ScoredTool (R : Type) : Type where
  serverId : String
  toolName : String
  tool : MCPTool
  score : R
deriving DecidableEq, Inhabited

/-- The merged (`Required<FilterOptions>`) options record the class works
with after defaulting. -/
structure FilterOptions (R : Type) : Type where
  topK : ℤ
  minScore : R
  contextMessages : ℕ
  alwaysInclude : List String
  exclude : List String
  maxContextTokens : ℕ
deriving DecidableEq

/-- One registry entry.  `initialize` populates `toolEmbeddings` and
`toolMetadata` with the same keys in the same insertion order, so the two
maps are modelled as a single entry list keyed by `toolKey`
(`serverId::toolName`). -/
structure RegEntry (R : Type) : Type where
  toolKey : String
  emb : List R
  meta : ToolWithMetadata
deriving DecidableEq

/-- `MCPToolFilter.computeSimilarities` (src/unnamed/part_002 554-581):
walk the registry in order, skip tools whose name is in `exclude`, score
the rest by `dotProduct` against the context embedding.  A dimension
mismatch in `dotProduct` propagates as the thrown error does. -/
def computeSimilarities {R : Type} [CommRing R] (reg : List (RegEntry R))
    (contextEmbedding : List R) (options : FilterOptions R) :
    Except VecError (List (ScoredTool R)) :=
  match reg with
  | [] => Except.ok []
  | entry :: rest =>
    if entry.meta.tool.name ∈ options.exclude then
      computeSimilarities rest contextEmbedding options
    else
      match dotProduct contextEmbedding entry.emb with
      | Except.error e => Except.error e
      | Except.ok score =>
        match computeSimilarities rest contextEmbedding options with
        | Except.error e => Except.error e
        | Except.ok scores =>
          Except.ok ({ serverId := entry.meta.serverId, toolName := entry.meta.tool.name,
                       tool := entry.meta.tool, score := score } :: scores)

/-- `MCPToolFilter.selectTools` (src/unnamed/part_002 587-614): one pass
partitions the scored candidates into the `alwaysInclude` set (kept
regardless of score) and the rest filtered by `minScore`; then the top
`remainingSlots = max(0, topK - alwaysIncluded.length)` of the latter via
`partialSort`; output is forced entries first, then the ranked rest. -/
def selectTools {R : Type} [LinearOrder R] [Inhabited R] (scores : List (ScoredTool R))
    (options : FilterOptions R) : List (ScoredTool R) :=
  let alwaysIncluded := scores.filter (fun s => decide (s.toolName ∈ options.alwaysInclude))
  let scoredTools := scores.filter
    (fun s => decide (s.toolName ∉ options.alwaysInclude ∧ options.minScore ≤ s.score))
  let remainingSlots : ℤ := max 0 (options.topK - alwaysIncluded.length)
  alwaysIncluded ++ partSort scoredTools remainingSlots (fun t => t.score)

/-- Errors `filter` can throw: the not-initialized guard and the
dimension-mismatch error propagated out of `dotProduct`. -/
inductive FilterError : Type
  | uninit : FilterError
  | dimMismatch : FilterError
deriving DecidableEq

/-- The long-lived state of an `MCPToolFilter` instance: the initialized
flag, the registry built by `initialize`, and the context-embedding LRU
cache (capacity `MAX_CACHE_SIZE = 100`, keyed by `hashString` of the
context string). -/
structure FilterState : Type where
  isInit : Bool
  reg : List (RegEntry ℝ)
  cache : LRU ℤ (List ℝ)

/-- The per-request metrics the claims inspect.  `totalTime` and
`similarityTime` are wall-clock readings (`Date.now()` deltas) with no
functional content and are not modelled; `embeddingTime` is modelled
because the source sets it to the literal `0` on a cache hit, and to the
elapsed time of the provider call (here: the oracle value `embedCost`) on
a miss. -/
structure FilterMetrics : Type where
  embeddingTime : ℕ
  toolsEvaluated : ℕ
deriving DecidableEq

/-- `FilterResult`: the ranked tools plus metrics. -/
structure FilterResultM : Type where
  tools : List (ScoredTool ℝ)
  metrics : FilterMetrics

/-- `MCPToolFilter.filter(input, options?)` (src/unnamed/part_002 459-548)
with options already merged.  The embedding provider is the deterministic
oracle `embedFn` and its latency the oracle `embedCost`.  Pipeline: guard
on initialization; build the context string; hash it; on a cache hit use
the stored embedding with `embeddingTime = 0`; on a miss embed, normalize
in place, store in the cache; score the registry; select; report
`toolsEvaluated = toolEmbeddings.size`. -/
noncomputable def filterM (embedFn : String → List ℝ) (embedCost : ℕ)
    (st : FilterState) (input : FilterInput) (opts : FilterOptions ℝ) :
    Except FilterError (FilterState × FilterResultM) :=
  if st.isInit = false then Except.error FilterError.uninit
  else
    let contextString := buildContextString input opts.contextMessages opts.maxContextTokens
    let contextHash := hashString contextString
    match lruGet st.cache contextHash with
    | (some cachedEmbedding, cache2) =>
      match computeSimilarities st.reg cachedEmbedding opts with
      | Except.error _ => Except.error FilterError.dimMismatch
      | Except.ok scores =>
        Except.ok ({ st with cache := cache2 },
          { tools := selectTools scores opts,
            metrics := { embeddingTime := 0, toolsEvaluated := st.reg.length } })
    | (none, cache2) =>
      let contextEmbedding := (normalizeVector (embedFn contextString) true).fst
      let cache3 := lruSet cache2 contextHash contextEmbedding
      match computeSimilarities st.reg contextEmbedding opts with
      | Except.error _ => Except.error FilterError.dimMismatch
      | Except.ok scores =>
        Except.ok ({ st with cache := cache3 },
          { tools := selectTools scores opts,
            metrics := { embeddingTime := embedCost, toolsEvaluated := st.reg.length } })

/-! ## Concrete instances used by the claim theorems -/

/-- A three-way score tie (items carry an identifying index and a score,
scored by `Prod.snd`): the bounded min-heap policy returns these in a
different order than the stable descending sort. -/
def cexTriple : List (ℕ × ℕ) := [(0, 5), (1, 5), (2, 5)]

/-- A 503-candidate pool, above the fixed size threshold 500, so
`partialSort` takes the min-heap path for it: 500 candidates with distinct
ascending scores followed by three tied top-scoring candidates. -/
def cexPool : List (ℕ × ℕ) :=
  ((List.range 500).map (fun i => (i, i))) ++ [(500, 1000), (501, 1000), (502, 1000)]

/-- A concrete one-tool registry over `ℚ` used by claim witnesses. -/
def regW : List (RegEntry ℚ) :=
  [⟨"s1::t1", [], ⟨"s1", "S1", ⟨"t1", "d", none, none, none⟩, "d"⟩⟩]

/-- Concrete merged options naming `t1` in both `exclude` and
`alwaysInclude` (exclude must win). -/
def optsW : FilterOptions ℚ :=
  ⟨20, 3 / 10, 3, ["t1"], ["t1"], 500⟩

/-- A concrete registry over `ℝ` with one tool `t1`, used by orchestrator
witnesses; its embedding is the empty vector. -/
noncomputable def regX : List (RegEntry ℝ) :=
  [⟨"s1::t1", [], ⟨"s1", "S1", ⟨"t1", "d", none, none, none⟩, "d"⟩⟩]

/-- Concrete merged options over `ℝ` excluding `t1`, so similarity scoring
of `regX` never performs real arithmetic. -/
noncomputable def optsX : FilterOptions ℝ :=
  ⟨20, 0, 3, [], ["t1"], 500⟩

/-- A concrete initialized filter state whose context cache already holds
an embedding (the empty vector) for the context string of the raw input
`"a"` — so a `filter` call on that input is a cache hit. -/
noncomputable def stX : FilterState :=
  ⟨true, regX, ⟨[(hashString (buildContextString (FilterInput.raw "a") 3 500), [])], 100⟩⟩

/-! ## Lemmas: array access and swaps -/

section HeapProofs

variable {α : Type} [Inhabited α] {R : Type} [LinearOrder R]

theorem getD_set_self {l : List α} {i : ℕ} (x d : α) (h : i < l.length) :
    (l.set i x).getD i d = x := by
  rw [List.getD_eq_getElem _ _ (by simpa using h)]
  simp [List.getElem_set]

theorem getD_set_ne {l : List α} {i j : ℕ} (x d : α) (h : i ≠ j) :
    (l.set i x).getD j d = l.getD j d := by
  rcases Nat.lt_or_ge j l.length with hj | hj
  · rw [List.getD_eq_getElem _ _ (by simpa using hj), List.getD_eq_getElem _ _ hj]
    simp [List.getElem_set, h]
  · rw [List.getD_eq_default _ _ (by simpa using hj), List.getD_eq_default _ _ hj]

theorem length_swapL (l : List α) (i j : ℕ) : (swapL l i j).length = l.length := by
  simp [swapL]

theorem getD_swapL_fst {l : List α} {i j : ℕ} (hi : i < l.length) (hij : i ≠ j) :
    (swapL l i j).getD i default = l.getD j default := by
  unfold swapL
  rw [getD_set_ne _ _ (fun h => hij h.symm), getD_set_self _ _ hi]

theorem getD_swapL_snd {l : List α} {i j : ℕ} (hj : j < l.length) :
    (swapL l i j).getD j default = l.getD i default := by
  unfold swapL
  rw [getD_set_self _ _ (by simpa using hj)]

theorem getD_swapL_other {l : List α} {i j j' : ℕ} (d : α) (h1 : j' ≠ i) (h2 : j' ≠ j) :
    (swapL l i j).getD j' d = l.getD j' d := by
  unfold swapL
  rw [getD_set_ne _ _ (fun h => h2 h.symm), getD_set_ne _ _ (fun h => h1 h.symm)]

theorem parentIdx_lt {j : ℕ} (h : 0 < j) : parentIdx j < j := by
  unfold parentIdx
  omega

theorem parentIdx_left (i : ℕ) : parentIdx (2 * i + 1) = i := by
  unfold parentIdx
  omega

theorem parentIdx_right (i : ℕ) : parentIdx (2 * i + 2) = i := by
  unfold parentIdx
  omega

theorem parentIdx_eq_iff {i j : ℕ} (h : 0 < j) :
    parentIdx j = i ↔ j = 2 * i + 1 ∨ j = 2 * i + 2 := by
  unfold parentIdx
  omega

theorem perm_cons_set {l : List α} {k : ℕ} (x d : α) (h : k < l.length) :
    List.Perm (l.getD k d :: l.set k x) (x :: l) := by
  induction l generalizing k with
  | nil => simp at h
  | cons y t ih =>
    cases k with
    | zero => simpa using List.Perm.swap x y t
    | succ m =>
      have hm : m < t.length := by simpa using h
      rw [List.getD_cons_succ, List.set_cons_succ]
      exact ((List.Perm.swap y (t.getD m d) (t.set m x)).trans
        (List.Perm.cons y (ih hm))).trans (List.Perm.swap x y t)

theorem set_getD_self {l : List α} {i : ℕ} (d : α) (h : i < l.length) :
    l.set i (l.getD i d) = l := by
  induction l generalizing i with
  | nil => simp at h
  | cons y t ih =>
    cases i with
    | zero => simp
    | succ m =>
      have hm : m < t.length := by simpa using h
      rw [List.getD_cons_succ, List.set_cons_succ, ih hm]

theorem swapL_perm {l : List α} {i j : ℕ} (hi : i < l.length) (hj : j < l.length) :
    List.Perm (swapL l i j) l := by
  rcases eq_or_ne i j with rfl | hij
  · unfold swapL
    rw [List.set_set, set_getD_self _ hi]
  · unfold swapL
    have h1 : List.Perm (l.getD i default :: l.set i (l.getD j default))
        (l.getD j default :: l) := perm_cons_set _ _ hi
    have hL : j < (l.set i (l.getD j default)).length := by simpa using hj
    have h2 := perm_cons_set (l := l.set i (l.getD j default)) (l.getD i default) default hL
    rw [getD_set_ne _ _ hij] at h2
    exact (h2.trans h1).cons_inv

theorem isHeap_root_le {f : α → R} {l : List α} (hl : IsHeap f l) :
    ∀ j, j < l.length → f (l.getD 0 default) ≤ f (l.getD j default) := by
  intro j
  induction j using Nat.strong_induction_on with
  | _ j ih =>
    intro hj
    rcases Nat.eq_zero_or_pos j with rfl | hpos
    · exact le_refl _
    · exact le_trans
        (ih (parentIdx j) (parentIdx_lt hpos) (lt_trans (parentIdx_lt hpos) hj))
        (hl j hpos hj)

theorem isHeap_root_le_mem {f : α → R} {l : List α} (hl : IsHeap f l) {z : α} (hz : z ∈ l) :
    f (l.getD 0 default) ≤ f z := by
  obtain ⟨i, hi, rfl⟩ := List.mem_iff_getElem.mp hz
  have h := isHeap_root_le hl i hi
  rwa [List.getD_eq_getElem _ _ hi] at h

theorem upInv_swap {f : α → R} {l : List α} {i : ℕ} (hi0 : 0 < i) (hi : i < l.length)
    (hinv : UpInv f l i)
    (hlt : f (l.getD i default) < f (l.getD (parentIdx i) default)) :
    UpInv f (swapL l i (parentIdx i)) (parentIdx i) := by
  obtain ⟨h1, h2⟩ := hinv
  have hpi : parentIdx i < i := parentIdx_lt hi0
  have hpl : parentIdx i < l.length := lt_trans hpi hi
  have hne : i ≠ parentIdx i := Nat.ne_of_gt hpi
  have e_i : (swapL l i (parentIdx i)).getD i default = l.getD (parentIdx i) default :=
    getD_swapL_fst hi hne
  have e_p : (swapL l i (parentIdx i)).getD (parentIdx i) default = l.getD i default :=
    getD_swapL_snd hpl
  have e_other : ∀ j', j' ≠ i → j' ≠ parentIdx i →
      (swapL l i (parentIdx i)).getD j' default = l.getD j' default :=
    fun j' ha hb => getD_swapL_other default ha hb
  have hlen : (swapL l i (parentIdx i)).length = l.length := length_swapL l i (parentIdx i)
  constructor
  · intro j hj0 hjl hjp
    rw [hlen] at hjl
    rcases eq_or_ne j i with rfl | hji
    · rw [e_i, e_p]
      exact le_of_lt hlt
    · rcases eq_or_ne (parentIdx j) i with hpar | hpar
      · rw [hpar, e_i, e_other j hji hjp]
        exact h2 hi0 j hjl hpar
      · rcases eq_or_ne (parentIdx j) (parentIdx i) with hpar2 | hpar2
        · rw [hpar2, e_p, e_other j hji hjp]
          exact le_trans (le_of_lt hlt) (hpar2 ▸ h1 j hj0 hjl hji)
        · rw [e_other (parentIdx j) hpar hpar2, e_other j hji hjp]
          exact h1 j hj0 hjl hji
  · intro hp0 j hjl hpj
    rw [hlen] at hjl
    have hgp : parentIdx (parentIdx i) < parentIdx i := parentIdx_lt hp0
    have hg1 : parentIdx (parentIdx i) ≠ i := Nat.ne_of_lt (lt_trans hgp hpi)
    have hg2 : parentIdx (parentIdx i) ≠ parentIdx i := Nat.ne_of_lt hgp
    rw [e_other _ hg1 hg2]
    rcases eq_or_ne j i with rfl | hji
    · rw [e_i]
      exact h1 (parentIdx j) hp0 hpl hne.symm
    · have hj0 : 0 < j := by
        rcases Nat.eq_zero_or_pos j with rfl | h
        · exact absurd hpj.symm (by simpa [parentIdx] using Nat.ne_of_gt hp0)
        · exact h
      have hjp : j ≠ parentIdx i := by
        intro h
        rw [h] at hpj
        exact absurd hpj (Nat.ne_of_lt (parentIdx_lt hp0))
      rw [e_other j hji hjp]
      exact le_trans (h1 (parentIdx i) hp0 hpl hne.symm) (hpj ▸ h1 j hj0 hjl hji)

theorem bubbleUp_perm (f : α → R) (fuel : ℕ) :
    ∀ (l : List α) (i : ℕ), i < l.length → List.Perm (bubbleUp f fuel l i) l := by
  induction fuel with
  | zero => intro l i _; exact List.Perm.refl l
  | succ fuel ih =>
    intro l i hi
    unfold bubbleUp
    split
    · exact List.Perm.refl l
    · split
      · exact List.Perm.refl l
      · rename_i hi0 _
        have hp : parentIdx i < l.length :=
          lt_trans (parentIdx_lt (Nat.pos_of_ne_zero hi0)) hi
        have hp2 : parentIdx i < (swapL l i (parentIdx i)).length := by
          rw [length_swapL]; exact hp
        exact (ih (swapL l i (parentIdx i)) (parentIdx i) hp2).trans (swapL_perm hi hp)

theorem bubbleUp_length (f : α → R) {fuel : ℕ} {l : List α} {i : ℕ} (hi : i < l.length) :
    (bubbleUp f fuel l i).length = l.length :=
  (bubbleUp_perm f fuel l i hi).length_eq

theorem bubbleUp_isHeap (f : α → R) (fuel : ℕ) :
    ∀ (l : List α) (i : ℕ), i ≤ fuel → i < l.length → UpInv f l i →
      IsHeap f (bubbleUp f fuel l i) := by
  induction fuel with
  | zero =>
    intro l i hfuel _ hinv
    have hi0 : i = 0 := Nat.le_zero.mp hfuel
    subst hi0
    intro j hj0 hjl
    exact hinv.1 j hj0 hjl (Nat.ne_of_gt hj0)
  | succ fuel ih =>
    intro l i hfuel hi hinv
    unfold bubbleUp
    split
    · rename_i hi0
      subst hi0
      intro j hj0 hjl
      exact hinv.1 j hj0 hjl (Nat.ne_of_gt hj0)
    · split
      · rename_i hi0 hle
        intro j hj0 hjl
        rcases eq_or_ne j i with rfl | hji
        · exact hle
        · exact hinv.1 j hj0 hjl hji
      · rename_i hi0 hle
        have hpos : 0 < i := Nat.pos_of_ne_zero hi0
        have hlt : f (l.getD i default) < f (l.getD (parentIdx i) default) := lt_of_not_le hle
        have hp : parentIdx i < l.length := lt_trans (parentIdx_lt hpos) hi
        have hp2 : parentIdx i < (swapL l i (parentIdx i)).length := by
          rw [length_swapL]; exact hp
        exact ih (swapL l i (parentIdx i)) (parentIdx i)
          (le_trans (Nat.le_of_lt_succ (Nat.lt_of_lt_of_le (parentIdx_lt hpos) hfuel)) (le_refl _))
          hp2 (upInv_swap hpos hi hinv hlt)

theorem upInv_append {f : α → R} {l : List α} (x : α) (hl : IsHeap f l) :
    UpInv f (l ++ [x]) l.length := by
  constructor
  · intro j hj0 hjl hji
    have hjlen : j < l.length := by
      rw [List.length_append, List.length_singleton] at hjl
      omega
    have hp : parentIdx j < l.length := lt_trans (parentIdx_lt hj0) hjlen
    rw [List.getD_append _ _ _ _ hjlen, List.getD_append _ _ _ _ hp]
    exact hl j hj0 hjlen
  · intro hl0 j hjl hpj
    rw [List.length_append, List.length_singleton] at hjl
    have := (parentIdx_eq_iff (by
      rcases Nat.eq_zero_or_pos j with rfl | h
      · exact absurd hpj (by simpa [parentIdx] using Nat.ne_of_lt hl0)
      · exact h)).mp hpj
    omega

theorem heapPush_isHeap {f : α → R} {l : List α} (x : α) (hl : IsHeap f l) :
    IsHeap f (heapPush f l x) :=
  bubbleUp_isHeap f l.length (l ++ [x]) l.length (le_refl _)
    (by rw [List.length_append, List.length_singleton]; omega) (upInv_append x hl)

theorem heapPush_perm (f : α → R) (l : List α) (x : α) :
    List.Perm (heapPush f l x) (l ++ [x]) :=
  bubbleUp_perm f l.length (l ++ [x]) l.length
    (by rw [List.length_append, List.length_singleton]; omega)

theorem heapPush_length (f : α → R) (l : List α) (x : α) :
    (heapPush f l x).length = l.length + 1 := by
  rw [(heapPush_perm f l x).length_eq, List.length_append, List.length_singleton]

theorem heapPush_mem {f : α → R} {l : List α} {x z : α} (hz : z ∈ heapPush f l x) :
    z ∈ l ∨ z = x := by
  have := (heapPush_perm f l x).mem_iff.mp hz
  simpa using this

theorem minIdx2_eq_self {f : α → R} {l : List α} {i : ℕ} (h : minIdx2 f l i = i) :
    ∀ j, j < l.length → parentIdx j = i → f (l.getD i default) ≤ f (l.getD j default) := by
  intro j hjl hpj
  rcases Nat.eq_zero_or_pos j with rfl | hj0
  · have : i = 0 := by simpa [parentIdx] using hpj.symm
    subst this
    exact le_refl _
  · have hj12 := (parentIdx_eq_iff hj0).mp hpj
    unfold minIdx2 minIdx1 at h
    split_ifs at h with h1 h2 h3
    · omega
    · omega
    · omega
    · rcases hj12 with rfl | rfl
      · exact le_of_not_lt (fun hc => h1 ⟨hjl, hc⟩)
      · exact le_of_not_lt (fun hc => h3 ⟨hjl, hc⟩)

theorem minIdx2_spec {f : α → R} {l : List α} {i : ℕ} (h : minIdx2 f l i ≠ i) :
    (minIdx2 f l i = 2 * i + 1 ∨ minIdx2 f l i = 2 * i + 2) ∧ minIdx2 f l i < l.length ∧
      f (l.getD (minIdx2 f l i) default) < f (l.getD i default) ∧
      ∀ j, j < l.length → parentIdx j = i →
        f (l.getD (minIdx2 f l i) default) ≤ f (l.getD j default) := by
  have hspec : (minIdx2 f l i = 2 * i + 1 ∨ minIdx2 f l i = 2 * i + 2) ∧
      minIdx2 f l i < l.length ∧
      f (l.getD (minIdx2 f l i) default) < f (l.getD i default) ∧
      (2 * i + 1 < l.length → f (l.getD (minIdx2 f l i) default) ≤ f (l.getD (2 * i + 1) default)) ∧
      (2 * i + 2 < l.length → f (l.getD (minIdx2 f l i) default) ≤ f (l.getD (2 * i + 2) default)) := by
    unfold minIdx2 minIdx1
    unfold minIdx2 minIdx1 at h
    split_ifs at h ⊢ with h1 h2 h3
    · exact ⟨Or.inr rfl, h2.1, lt_trans h2.2 h1.2, fun _ => le_of_lt h2.2, fun _ => le_refl _⟩
    · exact ⟨Or.inl rfl, h1.1, h1.2, fun _ => le_refl _,
        fun hr => le_of_not_lt (fun hc => h2 ⟨hr, hc⟩)⟩
    · refine ⟨Or.inr rfl, h3.1, h3.2, ?_, fun _ => le_refl _⟩
      intro hlft
      exact le_trans (le_of_lt h3.2) (le_of_not_lt (fun hc => h1 ⟨hlft, hc⟩))
    · exact absurd rfl h
  refine ⟨hspec.1, hspec.2.1, hspec.2.2.1, ?_⟩
  intro j hjl hpj
  rcases Nat.eq_zero_or_pos j with rfl | hj0
  · have : i = 0 := by simpa [parentIdx] using hpj.symm
    subst this
    exact le_of_lt hspec.2.2.1
  · rcases (parentIdx_eq_iff hj0).mp hpj with rfl | rfl
    · exact hspec.2.2.2.1 hjl
    · exact hspec.2.2.2.2 hjl

theorem downInv_swap {f : α → R} {l : List α} {i m : ℕ} (hi : i < l.length)
    (hm : m = 2 * i + 1 ∨ m = 2 * i + 2) (hml : m < l.length)
    (hlt : f (l.getD m default) < f (l.getD i default))
    (hmin : ∀ j, j < l.length → parentIdx j = i →
      f (l.getD m default) ≤ f (l.getD j default))
    (hinv : DownInv f l i) :
    DownInv f (swapL l i m) m := by
  have him : i < m := by omega
  have hpm : parentIdx m = i := by
    rcases hm with rfl | rfl
    · exact parentIdx_left i
    · exact parentIdx_right i
  have hne : i ≠ m := Nat.ne_of_lt him
  have e_i : (swapL l i m).getD i default = l.getD m default := getD_swapL_fst hi hne
  have e_m : (swapL l i m).getD m default = l.getD i default := getD_swapL_snd hml
  have e_other : ∀ j', j' ≠ i → j' ≠ m →
      (swapL l i m).getD j' default = l.getD j' default :=
    fun j' ha hb => getD_swapL_other default ha hb
  have hlen : (swapL l i m).length = l.length := length_swapL l i m
  constructor
  · intro j hj0 hjl hjpm
    rw [hlen] at hjl
    rcases eq_or_ne j m with rfl | hjm
    · rw [hpm, e_i, e_m]
      exact le_of_lt hlt
    · rcases eq_or_ne j i with rfl | hji
      · have hpj : parentIdx j ≠ j := Nat.ne_of_lt (parentIdx_lt hj0)
        have hpjm2 : parentIdx j ≠ m := Nat.ne_of_lt (lt_trans (parentIdx_lt hj0) him)
        rw [e_other _ hpj hpjm2, e_i]
        exact hinv.2 hj0 m hml hpm
      · rcases eq_or_ne (parentIdx j) i with hpji | hpji
        · rw [hpji, e_i, e_other j hji hjm]
          exact hmin j hjl hpji
        · rw [e_other _ hpji hjpm, e_other j hji hjm]
          exact hinv.1 j hj0 hjl hpji
  · intro hm0 j hjl hpjm
    rw [hlen] at hjl
    have hj0 : 0 < j := by
      rcases Nat.eq_zero_or_pos j with rfl | h
      · exact absurd hpjm.symm (by simpa [parentIdx] using Nat.ne_of_gt hm0)
      · exact h
    have hmj : m < j := hpjm ▸ parentIdx_lt hj0
    have hji : j ≠ i := Nat.ne_of_gt (lt_trans him hmj)
    have hjm : j ≠ m := Nat.ne_of_gt hmj
    rw [hpm, e_i, e_other j hji hjm]
    exact hpjm ▸ hinv.1 j hj0 hjl (hpjm.symm ▸ hne.symm)

theorem bubbleDown_perm (f : α → R) (fuel : ℕ) :
    ∀ (l : List α) (i : ℕ), i < l.length → List.Perm (bubbleDown f fuel l i) l := by
  induction fuel with
  | zero => intro l i _; exact List.Perm.refl l
  | succ fuel ih =>
    intro l i hi
    unfold bubbleDown
    split
    · exact List.Perm.refl l
    · rename_i hm
      obtain ⟨_, hml, _, _⟩ := minIdx2_spec hm
      have hm2 : minIdx2 f l i < (swapL l i (minIdx2 f l i)).length := by
        rw [length_swapL]; exact hml
      exact (ih _ _ hm2).trans (swapL_perm hi hml)

theorem bubbleDown_isHeap (f : α → R) (fuel : ℕ) :
    ∀ (l : List α) (i : ℕ), l.length ≤ fuel + i → i < l.length → DownInv f l i →
      IsHeap f (bubbleDown f fuel l i) := by
  induction fuel with
  | zero =>
    intro l i hfuel hi _
    omega
  | succ fuel ih =>
    intro l i hfuel hi hinv
    unfold bubbleDown
    split
    · rename_i hm
      intro j hj0 hjl
      rcases eq_or_ne (parentIdx j) i with hpj | hpj
      · rw [hpj]
        exact minIdx2_eq_self hm j hjl hpj
      · exact hinv.1 j hj0 hjl hpj
    · rename_i hm
      obtain ⟨h12, hml, hlt, hmin⟩ := minIdx2_spec hm
      have hm2 : minIdx2 f l i < (swapL l i (minIdx2 f l i)).length := by
        rw [length_swapL]; exact hml
      refine ih _ _ ?_ hm2 (downInv_swap hi h12 hml hlt hmin hinv)
      rw [length_swapL]
      omega

theorem getD_dropLast {l : List α} {j : ℕ} (d : α) (h : j < l.length - 1) :
    (l.dropLast).getD j d = l.getD j d := by
  have h1 : j < l.dropLast.length := by simpa using h
  have h2 : j < l.length := by omega
  rw [List.getD_eq_getElem _ _ h1, List.getD_eq_getElem _ _ h2, List.getElem_dropLast]

theorem popShift_length (l : List α) : (popShift l).length = l.length - 1 := by
  simp [popShift]

theorem downInv_popShift {f : α → R} {l : List α} (hl : IsHeap f l) :
    DownInv f (popShift l) 0 := by
  constructor
  · intro j hj0 hjl hpj
    rw [popShift_length] at hjl
    have hpl : parentIdx j < l.length - 1 := lt_trans (parentIdx_lt hj0) hjl
    unfold popShift
    rw [getD_set_ne _ _ (by omega : (0 : ℕ) ≠ j),
      getD_set_ne _ _ (fun hc => hpj hc.symm),
      getD_dropLast _ hjl, getD_dropLast _ hpl]
    exact hl j hj0 (by omega)
  · intro h0
    exact absurd h0 (lt_irrefl 0)

theorem heapPop_spec {f : α → R} {l : List α} (h : l ≠ []) :
    ∃ l2, heapPop f l = some (l.getD 0 default, l2) ∧
      List.Perm (l.getD 0 default :: l2) l ∧ l2.length = l.length - 1 := by
  have hlen : 0 < l.length := List.length_pos.mpr h
  unfold heapPop
  rcases eq_or_ne l.length 1 with h1 | h1
  · obtain ⟨a, rfl⟩ := List.length_eq_one.mp h1
    exact ⟨[], by simp, by simp, by simp⟩
  · have h2 : 2 ≤ l.length := by omega
    rw [if_neg (by omega), if_neg h1]
    refine ⟨_, rfl, ?_, ?_⟩
    · have hps : 0 < (popShift l).length := by rw [popShift_length]; omega
      have hperm : List.Perm (bubbleDown f (popShift l).length (popShift l) 0) (popShift l) :=
        bubbleDown_perm f _ _ 0 hps
      refine (List.Perm.cons _ hperm).trans ?_
      have hd0 : 0 < l.dropLast.length := by
        rw [List.length_dropLast]; omega
      have hcs := perm_cons_set (l := l.dropLast) (l.getD (l.length - 1) default) default hd0
      rw [getD_dropLast _ (by omega)] at hcs
      refine hcs.trans ?_
      have hlast : l.getD (l.length - 1) default = l.getLast h := by
        rw [List.getD_eq_getElem _ _ (by omega), List.getLast_eq_getElem]
      rw [hlast]
      exact (List.perm_append_singleton _ _).symm.trans
        (by rw [List.dropLast_append_getLast h])
    · rw [(bubbleDown_perm f _ _ 0 (by rw [popShift_length]; omega)).length_eq,
        popShift_length]

theorem heapPop_isHeap {f : α → R} {l : List α} (hl : IsHeap f l) {x : α} {l2 : List α}
    (h : heapPop f l = some (x, l2)) : IsHeap f l2 := by
  unfold heapPop at h
  split_ifs at h with h0 h1
  · have h4 : ([] : List α) = l2 := congrArg Prod.snd (Option.some.inj h)
    subst h4
    intro j hj0 hjl
    simp at hjl
  · have h4 : bubbleDown f (popShift l).length (popShift l) 0 = l2 :=
      congrArg Prod.snd (Option.some.inj h)
    subst h4
    exact bubbleDown_isHeap f _ _ 0 (by omega)
      (by rw [popShift_length]; omega) (downInv_popShift hl)

theorem popList_perm (f : α → R) (fuel : ℕ) :
    ∀ l : List α, l.length ≤ fuel → List.Perm (popList f fuel l) l := by
  induction fuel with
  | zero =>
    intro l hl
    have : l = [] := List.eq_nil_of_length_eq_zero (by omega)
    subst this
    exact List.Perm.refl _
  | succ fuel ih =>
    intro l hlen
    rcases eq_or_ne l [] with rfl | hne
    · simp [popList, heapPop]
    · obtain ⟨l2, hpop, hperm, hlen2⟩ := heapPop_spec (f := f) hne
      unfold popList
      rw [hpop]
      exact (List.Perm.cons _ (ih l2 (by omega))).trans hperm

theorem popList_sorted (f : α → R) (fuel : ℕ) :
    ∀ l : List α, l.length ≤ fuel → IsHeap f l →
      List.Sorted (fun a b => f a ≤ f b) (popList f fuel l) := by
  induction fuel with
  | zero => intro l _ _; exact List.sorted_nil
  | succ fuel ih =>
    intro l hlen hl
    rcases eq_or_ne l [] with rfl | hne
    · simp [popList, heapPop]
    · obtain ⟨l2, hpop, hperm, hlen2⟩ := heapPop_spec (f := f) hne
      unfold popList
      rw [hpop]
      refine List.sorted_cons.mpr ⟨?_, ih l2 (by omega) (heapPop_isHeap hl hpop)⟩
      intro b hb
      have hb2 : b ∈ l2 := (popList_perm f fuel l2 (by omega)).mem_iff.mp hb
      have hbl : b ∈ l := hperm.mem_iff.mp (List.mem_cons_of_mem _ hb2)
      exact isHeap_root_le_mem hl hbl

theorem toSortedArray_perm (f : α → R) (l : List α) :
    List.Perm (toSortedArray f l) l := by
  unfold toSortedArray
  exact (List.reverse_perm _).trans (popList_perm f l.length l (le_refl _))

theorem toSortedArray_sorted {f : α → R} {l : List α} (hl : IsHeap f l) :
    List.Sorted (fun a b => f b ≤ f a) (toSortedArray f l) := by
  have h := popList_sorted f l.length l (le_refl _) hl
  unfold toSortedArray
  exact (List.pairwise_reverse).mpr h

theorem heapStep_isHeap {f : α → R} {k : ℕ} {l : List α} (x : α) (hl : IsHeap f l) :
    IsHeap f (heapStep f k l x) := by
  unfold heapStep
  split
  · exact heapPush_isHeap x hl
  · split
    · rcases hpop : heapPop f l with - | y
      · simp [hpop]
        exact hl
      · rcases y with ⟨y1, l2⟩
        simp only [hpop]
        exact heapPush_isHeap x (heapPop_isHeap hl hpop)
    · exact hl

theorem heapStep_length {f : α → R} {k : ℕ} {l : List α} (x : α) :
    (heapStep f k l x).length ≤ max k l.length := by
  unfold heapStep
  split
  · rw [heapPush_length]
    omega
  · split
    · rcases hpop : heapPop f l with - | y
      · simp
      · rcases y with ⟨y1, l2⟩
        simp only [hpop]
        have hne : l ≠ [] := by
          intro hc
          subst hc
          simp [heapPop] at hpop
        obtain ⟨l2b, hpop2, -, hlen2⟩ := heapPop_spec (f := f) hne
        rw [hpop2] at hpop
        have hl2 : l2 = l2b := (congrArg Prod.snd (Option.some.inj hpop)).symm
        subst hl2
        rw [heapPush_length, hlen2]
        have : 0 < l.length := List.length_pos.mpr hne
        omega
    · omega

theorem heapStep_mem {f : α → R} {k : ℕ} {l : List α} {x z : α}
    (hz : z ∈ heapStep f k l x) : z ∈ l ∨ z = x := by
  unfold heapStep at hz
  split at hz
  · exact heapPush_mem hz
  · split at hz
    · rcases hpop : heapPop f l with - | y
      · rw [hpop] at hz
        exact Or.inl hz
      · rcases y with ⟨y1, l2⟩
        rw [hpop] at hz
        rcases heapPush_mem hz with h2 | h2
        · have hne : l ≠ [] := by
            intro hc
            subst hc
            simp [heapPop] at hpop
          obtain ⟨l2b, hpop2, hperm, -⟩ := heapPop_spec (f := f) hne
          rw [hpop2] at hpop
          have hl2 : l2 = l2b := (congrArg Prod.snd (Option.some.inj hpop)).symm
          subst hl2
          exact Or.inl (hperm.mem_iff.mp (List.mem_cons_of_mem _ h2))
        · exact Or.inr h2
    · exact Or.inl hz

theorem heapLoop_isHeap (f : α → R) (k : ℕ) :
    ∀ (items : List α) (h : List α), IsHeap f h → IsHeap f (items.foldl (heapStep f k) h) := by
  intro items
  induction items with
  | nil => intro h hh; exact hh
  | cons x rest ih =>
    intro h hh
    exact ih (heapStep f k h x) (heapStep_isHeap x hh)

theorem heapLoop_length (f : α → R) (k : ℕ) :
    ∀ (items : List α) (h : List α),
      (items.foldl (heapStep f k) h).length ≤ max k h.length := by
  intro items
  induction items with
  | nil => intro h; simp
  | cons x rest ih =>
    intro h
    exact le_trans (ih (heapStep f k h x)) (by
      have := heapStep_length (f := f) (k := k) (l := h) x
      omega)

theorem heapLoop_mem (f : α → R) (k : ℕ) :
    ∀ (items : List α) (h : List α) (z : α),
      z ∈ items.foldl (heapStep f k) h → z ∈ h ∨ z ∈ items := by
  intro items
  induction items with
  | nil => intro h z hz; exact Or.inl hz
  | cons x rest ih =>
    intro h z hz
    rcases ih (heapStep f k h x) z hz with h2 | h2
    · rcases heapStep_mem h2 with h3 | h3
      · exact Or.inl h3
      · exact Or.inr (h3 ▸ List.mem_cons_self x rest)
    · exact Or.inr (List.mem_cons_of_mem x h2)

theorem insertDesc_perm (f : α → R) (x : α) :
    ∀ l : List α, List.Perm (insertDesc f x l) (x :: l) := by
  intro l
  induction l with
  | nil => exact List.Perm.refl _
  | cons y ys ih =>
    unfold insertDesc
    split
    · exact List.Perm.refl _
    · exact (List.Perm.cons y ih).trans (List.Perm.swap x y ys)

theorem insertDesc_mem {f : α → R} {x z : α} {l : List α} :
    z ∈ insertDesc f x l ↔ z = x ∨ z ∈ l := by
  rw [(insertDesc_perm f x l).mem_iff]
  simp

theorem insertDesc_sorted {f : α → R} (x : α) {l : List α}
    (hl : List.Sorted (fun a b => f b ≤ f a) l) :
    List.Sorted (fun a b => f b ≤ f a) (insertDesc f x l) := by
  induction l with
  | nil => simp [insertDesc]
  | cons y ys ih =>
    rw [List.sorted_cons] at hl
    unfold insertDesc
    split
    · rename_i hlt
      refine List.sorted_cons.mpr ⟨?_, List.sorted_cons.mpr hl⟩
      intro b hb
      rcases List.mem_cons.mp hb with rfl | hb2
      · exact le_of_lt hlt
      · exact le_trans (hl.1 b hb2) (le_of_lt hlt)
    · rename_i hge
      refine List.sorted_cons.mpr ⟨?_, ih hl.2⟩
      intro b hb
      rcases insertDesc_mem.mp hb with rfl | hb2
      · exact le_of_not_lt hge
      · exact hl.1 b hb2

theorem sortDesc_cons_perm (f : α → R) :
    ∀ (items : List α) (acc : List α),
      List.Perm (items.foldl (fun a x => insertDesc f x a) acc) (acc ++ items) := by
  intro items
  induction items with
  | nil => intro acc; simp
  | cons x rest ih =>
    intro acc
    refine (ih (insertDesc f x acc)).trans ?_
    have h1 : List.Perm (insertDesc f x acc ++ rest) ((x :: acc) ++ rest) :=
      (insertDesc_perm f x acc).append_right rest
    refine h1.trans ?_
    simp only [List.cons_append]
    exact (List.perm_middle).symm.trans (List.Perm.refl _) |>.symm.symm

theorem sortDesc_perm (f : α → R) (items : List α) :
    List.Perm (sortDesc f items) items := by
  unfold sortDesc
  simpa using sortDesc_cons_perm f items []

theorem sortDesc_sorted (f : α → R) (items : List α) :
    List.Sorted (fun a b => f b ≤ f a) (sortDesc f items) := by
  unfold sortDesc
  suffices h : ∀ (its : List α) (acc : List α), List.Sorted (fun a b => f b ≤ f a) acc →
      List.Sorted (fun a b => f b ≤ f a) (its.foldl (fun a x => insertDesc f x a) acc) by
    exact h items [] List.sorted_nil
  intro its
  induction its with
  | nil => intro acc hacc; exact hacc
  | cons x rest ih =>
    intro acc hacc
    exact ih (insertDesc f x acc) (insertDesc_sorted x hacc)

theorem getD_zero_mem {l : List α} (h : l ≠ []) : l.getD 0 default ∈ l := by
  have h0 : 0 < l.length := List.length_pos.mpr h
  rw [List.getD_eq_getElem _ _ h0]
  exact List.getElem_mem _

theorem topKInv_step {f : α → R} {k : ℕ} {pre h : List α} {x : α} (hk : 1 ≤ k)
    (hnd : ((pre ++ [x]).map f).Nodup) (hinv : TopKInv f k pre h) :
    TopKInv f k (pre ++ [x]) (heapStep f k h x) := by
  obtain ⟨hheap, hndh, hsub, hlen, hbnd⟩ := hinv
  have hpw : (pre ++ [x]).Pairwise (fun a b => f a ≠ f b) := List.pairwise_map.mp hnd
  have hsym : Symmetric (fun a b : α => f a ≠ f b) := fun a b hab => hab.symm
  have hinj : ∀ a ∈ pre ++ [x], ∀ b ∈ pre ++ [x], a ≠ b → f a ≠ f b :=
    fun a ha b hb hne => List.Pairwise.forall hsym hpw ha hb hne
  have hxf : ∀ a ∈ pre, f a ≠ f x := by
    have hsplit := List.pairwise_append.mp hpw
    intro a ha
    exact hsplit.2.2 a ha x (by simp)
  have hxpre : x ∉ pre := fun hc => (hxf x hc) rfl
  unfold heapStep
  split
  · rename_i hlt
    have hpushperm := heapPush_perm f h x
    have hxh : x ∉ h := fun hc => hxpre (hsub x hc)
    refine ⟨heapPush_isHeap x hheap, ?_, ?_, ?_, ?_⟩
    · exact hpushperm.nodup_iff.mpr (((List.perm_append_singleton x h).nodup_iff).mpr
        (List.nodup_cons.mpr ⟨hxh, hndh⟩))
    · intro y hy
      rcases heapPush_mem hy with h2 | h2
      · exact List.mem_append_left _ (hsub y h2)
      · simp [h2]
    · rw [heapPush_length, hlen, List.length_append, List.length_singleton]
      rw [hlen] at hlt
      omega
    · intro x' hx' hx'h y hy
      exfalso
      rcases List.mem_append.mp hx' with h2 | h2
      · have hsp : h.Subperm pre := List.subperm_of_subset hndh hsub
        have hplen : pre.length ≤ h.length := by
          rw [hlen] at hlt ⊢
          omega
        have hperm2 : h.Perm pre := hsp.perm_of_length_le hplen
        have hmem : x' ∈ h := hperm2.mem_iff.mpr h2
        exact hx'h (hpushperm.mem_iff.mpr (List.mem_append_left _ hmem))
      · have hx'x : x' = x := by simpa using h2
        subst hx'x
        exact hx'h (hpushperm.mem_iff.mpr (List.mem_append_right _ (by simp)))
  · split
    · rename_i hge hroot
      have hne : h ≠ [] := by
        intro hc
        subst hc
        simp at hge
        omega
      obtain ⟨l2, hpop, hperm, hlen2⟩ := heapPop_spec (f := f) hne
      rw [hpop]
      have hrootmem : h.getD 0 default ∈ h := getD_zero_mem hne
      have hndcons : (h.getD 0 default :: l2).Nodup := hperm.nodup_iff.mpr hndh
      have hndl2 : l2.Nodup := (List.nodup_cons.mp hndcons).2
      have hrootl2 : h.getD 0 default ∉ l2 := (List.nodup_cons.mp hndcons).1
      have hsubl2 : ∀ y ∈ l2, y ∈ h := fun y hy => hperm.mem_iff.mp (List.mem_cons_of_mem _ hy)
      have hxl2 : x ∉ l2 := fun hc => hxpre (hsub x (hsubl2 x hc))
      have hpushperm := heapPush_perm f l2 x
      have hmem2 : ∀ y, y ∈ heapPush f l2 x ↔ (y ∈ l2 ∨ y = x) := by
        intro y
        rw [hpushperm.mem_iff]
        simp
      have hrootlt : ∀ y' ∈ l2, f (h.getD 0 default) < f y' := by
        intro y' hy'
        have hle : f (h.getD 0 default) ≤ f y' := isHeap_root_le_mem hheap (hsubl2 y' hy')
        have hne2 : h.getD 0 default ≠ y' := fun hc => hrootl2 (hc ▸ hy')
        exact lt_of_le_of_ne hle (hinj _ (List.mem_append_left _ (hsub _ hrootmem)) y'
          (List.mem_append_left _ (hsub y' (hsubl2 y' hy'))) hne2)
      refine ⟨heapPush_isHeap x (heapPop_isHeap hheap hpop), ?_, ?_, ?_, ?_⟩
      · exact hpushperm.nodup_iff.mpr (((List.perm_append_singleton x l2).nodup_iff).mpr
          (List.nodup_cons.mpr ⟨hxl2, hndl2⟩))
      · intro y hy
        rcases (hmem2 y).mp hy with h2 | h2
        · exact List.mem_append_left _ (hsub y (hsubl2 y h2))
        · subst h2
          exact List.mem_append_right _ (by simp)
      · rw [heapPush_length, hlen2, hlen]
        rw [hlen] at hge
        rw [List.length_append, List.length_singleton]
        omega
      · intro x' hx' hx'new y hy
        rcases List.mem_append.mp hx' with h2 | h2
        · by_cases hxh : x' ∈ h
          · have hx'c : x' ∈ h.getD 0 default :: l2 := hperm.mem_iff.mpr hxh
            rcases List.mem_cons.mp hx'c with hx'root | h3
            · rw [hx'root]
              rcases (hmem2 y).mp hy with h3 | h3
              · exact hrootlt y h3
              · rw [h3]
                exact hroot
            · exact absurd ((hmem2 x').mpr (Or.inl h3)) hx'new
          · have hold := hbnd x' h2 hxh
            rcases (hmem2 y).mp hy with h3 | h3
            · exact hold y (hsubl2 y h3)
            · rw [h3]
              exact lt_trans (hold _ hrootmem) hroot
        · have hx'x : x' = x := by simpa using h2
          exact absurd ((hmem2 x').mpr (Or.inr hx'x)) hx'new
    · rename_i hge hroot
      have hne : h ≠ [] := by
        intro hc
        subst hc
        simp at hge
        omega
      refine ⟨hheap, hndh, ?_, ?_, ?_⟩
      · exact fun y hy => List.mem_append_left _ (hsub y hy)
      · rw [hlen, List.length_append, List.length_singleton]
        rw [hlen] at hge
        omega
      · intro x' hx' hx'h y hy
        rcases List.mem_append.mp hx' with h2 | h2
        · exact hbnd x' h2 hx'h y hy
        · have hx'x : x' = x := by simpa using h2
          have hrootmem := getD_zero_mem hne
          have hfxroot : f x ≤ f (h.getD 0 default) := le_of_not_lt hroot
          have hne2 : f x ≠ f (h.getD 0 default) :=
            fun hc => (hxf (h.getD 0 default) (hsub _ hrootmem)) hc.symm
          rw [hx'x]
          exact lt_of_lt_of_le (lt_of_le_of_ne hfxroot hne2) (isHeap_root_le_mem hheap hy)

theorem topKInv_loop {f : α → R} {k : ℕ} (hk : 1 ≤ k) :
    ∀ items : List α, (items.map f).Nodup →
      TopKInv f k items (items.foldl (heapStep f k) []) := by
  intro items
  induction items using List.reverseRecOn with
  | nil =>
    intro _
    exact ⟨by intro j hj0 hjl; simp at hjl, List.nodup_nil, by simp, by simp, by simp⟩
  | append_singleton pre x ih =>
    intro hnd
    rw [List.foldl_append]
    simp only [List.foldl_cons, List.foldl_nil]
    refine topKInv_step hk hnd (ih ?_)
    rw [List.map_append] at hnd
    exact hnd.of_append_left

theorem heapPolicy_eq_take_sortDesc {f : α → R} {k : ℕ} (hk : 1 ≤ k) {items : List α}
    (hnd : (items.map f).Nodup) :
    heapSelectPolicy f k items = (sortDesc f items).take k := by
  obtain ⟨hheap, hndH, hsubH, hlenH, hbnd⟩ := topKInv_loop hk items hnd
  unfold heapSelectPolicy
  set H := items.foldl (heapStep f k) [] with hH
  set S := sortDesc f items with hS
  have hsym : Symmetric (fun a b : α => f a ≠ f b) := fun a b hab => hab.symm
  have hinj : ∀ a ∈ items, ∀ b ∈ items, a ≠ b → f a ≠ f b :=
    fun a ha b hb hne => List.Pairwise.forall hsym (List.pairwise_map.mp hnd) ha hb hne
  have hSperm : S.Perm items := sortDesc_perm f items
  have hSsorted := sortDesc_sorted f items
  have hitemsnd : items.Nodup := hnd.of_map
  have hSnd : S.Nodup := hSperm.nodup_iff.mpr hitemsnd
  have hta := List.take_append_drop k S
  have hcross : ∀ u ∈ S.drop k, ∀ v ∈ S.take k, f u ≤ f v := by
    intro u hu v hv
    have hp : (S.take k ++ S.drop k).Pairwise (fun a b => f b ≤ f a) := by
      rw [hta]
      exact hSsorted
    exact (List.pairwise_append.mp hp).2.2 v hv u hu
  have hlenA : (S.take k).length = min k items.length := by
    rw [List.length_take, hSperm.length_eq]
  have hAH : ∀ z ∈ S.take k, z ∈ H := by
    intro z hz
    by_contra hzH
    have hzS : z ∈ S := List.mem_of_mem_take hz
    have hzit : z ∈ items := hSperm.mem_iff.mp hzS
    have hzlt := hbnd z hzit hzH
    have hnotsub : ¬ (∀ y ∈ H, y ∈ S.take k) := by
      intro hsub2
      have hsp : H.Subperm (S.take k) := List.subperm_of_subset hndH hsub2
      have hperm2 : H.Perm (S.take k) := hsp.perm_of_length_le (by rw [hlenA, hlenH])
      exact hzH (hperm2.mem_iff.mpr hz)
    push_neg at hnotsub
    obtain ⟨y, hyH, hyA⟩ := hnotsub
    have hyS : y ∈ S := hSperm.mem_iff.mpr (hsubH y hyH)
    have hyD : y ∈ S.drop k := by
      have hmem : y ∈ S.take k ++ S.drop k := by rw [hta]; exact hyS
      rcases List.mem_append.mp hmem with h2 | h2
      · exact absurd h2 hyA
      · exact h2
    exact absurd (hcross y hyD z hz) (not_le.mpr (hzlt y hyH))
  have htand : (S.take k).Nodup := hSnd.sublist (List.take_sublist k S)
  have hsp2 : (S.take k).Subperm H := List.subperm_of_subset htand hAH
  have hHA : H.Perm (S.take k) := (hsp2.perm_of_length_le (by rw [hlenA, hlenH])).symm
  have htsp : (toSortedArray f H).Perm (S.take k) := (toSortedArray_perm f H).trans hHA
  have hHfnd : (H.map f).Nodup := by
    rw [List.nodup_map_iff_inj_on hndH]
    intro x hx y hy hfe
    by_contra hne
    exact hinj x (hsubH x hx) y (hsubH y hy) hne hfe
  have hts_fnd : ((toSortedArray f H).map f).Nodup :=
    (((toSortedArray_perm f H).map f).nodup_iff).mpr hHfnd
  have hstrict1 : (toSortedArray f H).Pairwise (fun a b => f b < f a) := by
    have h1 : (toSortedArray f H).Pairwise (fun a b => f b ≤ f a) := toSortedArray_sorted hheap
    have h2 : (toSortedArray f H).Pairwise (fun a b => f a ≠ f b) := List.pairwise_map.mp hts_fnd
    exact (h1.and h2).imp (fun hab => lt_of_le_of_ne hab.1 hab.2.symm)
  have htake_fnd : ((S.take k).map f).Nodup := by
    have hmap : (S.map f).Nodup := ((hSperm.map f).nodup_iff).mpr hnd
    rw [List.map_take]
    exact hmap.sublist (List.take_sublist k (S.map f))
  have hstrict2 : (S.take k).Pairwise (fun a b => f b < f a) := by
    have h1 : (S.take k).Pairwise (fun a b => f b ≤ f a) :=
      hSsorted.sublist (List.take_sublist k S)
    have h2 := List.pairwise_map.mp htake_fnd
    exact (h1.and h2).imp (fun hab => lt_of_le_of_ne hab.1 hab.2.symm)
  haveI : IsAntisymm α (fun a b => f b < f a) :=
    ⟨fun a b h1 h2 => absurd h2 (lt_asymm h1)⟩
  exact List.eq_of_perm_of_sorted htsp hstrict1 hstrict2

theorem partSort_sorted (items : List α) (k : ℤ) (f : α → R) :
    List.Pairwise (fun a b => f b ≤ f a) (partSort items k f) := by
  unfold partSort
  split_ifs with h1 h2 h3
  · exact List.Pairwise.nil
  · exact sortDesc_sorted f items
  · exact (sortDesc_sorted f items).sublist (List.take_sublist _ _)
  · exact toSortedArray_sorted
      (heapLoop_isHeap f k.toNat items [] (by intro j hj0 hjl; simp at hjl))

theorem partSort_length_le (items : List α) (k : ℤ) (f : α → R) :
    (partSort items k f).length ≤ k.toNat := by
  unfold partSort
  split_ifs with h1 h2 h3
  · simp
  · rw [(sortDesc_perm f items).length_eq]
    omega
  · exact le_trans (List.length_take_le _ _) (le_refl _)
  · unfold heapSelectPolicy toSortedArray
    rw [List.length_reverse,
      (popList_perm f (items.foldl (heapStep f k.toNat) []).length _ (le_refl _)).length_eq]
    have hloop := heapLoop_length f k.toNat items []
    simpa using hloop

theorem partSort_mem {items : List α} {k : ℤ} {f : α → R} {z : α}
    (hz : z ∈ partSort items k f) : z ∈ items := by
  unfold partSort at hz
  split_ifs at hz with h1 h2 h3
  · simp at hz
  · exact (sortDesc_perm f items).mem_iff.mp hz
  · exact (sortDesc_perm f items).mem_iff.mp (List.mem_of_mem_take hz)
  · have hz2 := (toSortedArray_perm f _).mem_iff.mp hz
    rcases heapLoop_mem f k.toNat items [] z hz2 with h | h
    · simp at h
    · exact h

theorem partSort_eq_fullSortPolicy {items : List α} {k : ℤ} {f : α → R}
    (hnd : (items.map f).Nodup) :
    partSort items k f = fullSortPolicy f k items := by
  unfold partSort fullSortPolicy
  split_ifs with h1 h2 h3
  · have hz : k.toNat = 0 := by omega
    rw [hz, List.take_zero]
  · rw [List.take_of_length_le (by rw [(sortDesc_perm f items).length_eq]; omega)]
  · rfl
  · exact heapPolicy_eq_take_sortDesc (by omega) hnd

end HeapProofs

section SelectorProofs

variable {R : Type} [LinearOrder R] [Inhabited R]

theorem selectTools_eq (scores : List (ScoredTool R)) (o : FilterOptions R) :
    selectTools scores o =
      scores.filter (fun s => decide (s.toolName ∈ o.alwaysInclude)) ++
        partSort
          (scores.filter (fun s => decide (s.toolName ∉ o.alwaysInclude ∧ o.minScore ≤ s.score)))
          (max 0 (o.topK -
            (scores.filter (fun s => decide (s.toolName ∈ o.alwaysInclude))).length))
          (fun t => t.score) := rfl

theorem selectTools_subset {scores : List (ScoredTool R)} {o : FilterOptions R}
    {s : ScoredTool R} (hs : s ∈ selectTools scores o) : s ∈ scores := by
  rw [selectTools_eq] at hs
  rcases List.mem_append.mp hs with h2 | h2
  · exact (List.mem_filter.mp h2).1
  · exact (List.mem_filter.mp (partSort_mem h2)).1

end SelectorProofs

section LRUProofs

variable {K V : Type} [DecidableEq K]

theorem findVal_nil (k : K) : findVal ([] : List (K × V)) k = none := rfl

theorem findVal_cons (e : K × V) (l : List (K × V)) (k : K) :
    findVal (e :: l) k = if e.fst = k then some e.snd else findVal l k := by
  unfold findVal
  rcases eq_or_ne e.fst k with he | he
  · rw [if_pos he, List.find?_cons_of_pos _ (by simpa using he)]
    rfl
  · rw [if_neg he, List.find?_cons_of_neg _ (by simpa using he)]

theorem findVal_none_iff {l : List (K × V)} {k : K} :
    findVal l k = none ↔ ∀ e ∈ l, e.fst ≠ k := by
  induction l with
  | nil => simp [findVal_nil]
  | cons e t ih =>
    rw [findVal_cons]
    rcases eq_or_ne e.fst k with he | he
    · simp [he]
    · simp only [if_neg he, ih, List.mem_cons]
      constructor
      · intro h x hx
        rcases hx with rfl | hx
        · exact he
        · exact h x hx
      · intro h x hx
        exact h x (Or.inr hx)

theorem findVal_append_of_none {l : List (K × V)} {k : K} (h : findVal l k = none)
    (m : List (K × V)) : findVal (l ++ m) k = findVal m k := by
  induction l with
  | nil => simp
  | cons e t ih =>
    rw [findVal_cons] at h
    rw [List.cons_append, findVal_cons]
    rcases eq_or_ne e.fst k with he | he
    · rw [if_pos he] at h
      exact absurd h (by simp)
    · rw [if_neg he] at h ⊢
      exact ih h

theorem findVal_eraseKey (l : List (K × V)) (k : K) : findVal (eraseKey l k) k = none := by
  rw [findVal_none_iff]
  intro e he
  have h2 := (List.mem_filter.mp he).2
  simpa using h2

theorem findVal_singleton (k : K) (v : V) : findVal [(k, v)] k = some v := by
  rw [findVal_cons]
  simp

theorem findVal_sublist_none {l m : List (K × V)} {k : K} (hm : m.Sublist l)
    (h : findVal l k = none) : findVal m k = none := by
  rw [findVal_none_iff] at h ⊢
  exact fun e he => h e (hm.mem he)

theorem lruSet_findVal (c : LRU K V) (k : K) (v : V) :
    findVal (lruSet c k v).entries k = some v := by
  unfold lruSet
  dsimp only
  rw [findVal_append_of_none ?hnone, findVal_singleton]
  case hnone =>
    split_ifs with h1 h2 h3
    · exact findVal_sublist_none (List.drop_sublist 1 _) (findVal_eraseKey c.entries k)
    · exact findVal_eraseKey c.entries k
    · exact findVal_sublist_none (List.drop_sublist 1 _)
        (Option.not_isSome_iff_eq_none.mp h1)
    · exact Option.not_isSome_iff_eq_none.mp h1

theorem lruGet_hit {c : LRU K V} {k : K} {v : V} {c2 : LRU K V}
    (h : lruGet c k = (some v, c2)) :
    findVal c2.entries k = some v ∧ c2.maxSize = c.maxSize := by
  unfold lruGet at h
  cases hfv : findVal c.entries k with
  | none =>
    rw [hfv] at h
    have := congrArg Prod.fst h
    exact absurd this (by simp)
  | some w =>
    rw [hfv] at h
    have hv : some w = some v := congrArg Prod.fst h
    have hc : (⟨eraseKey c.entries k ++ [(k, w)], c.maxSize⟩ : LRU K V) = c2 :=
      congrArg Prod.snd h
    rw [← hc]
    constructor
    · rw [findVal_append_of_none (findVal_eraseKey c.entries k), findVal_singleton]
      exact hv
    · rfl

theorem lruGet_miss {c : LRU K V} {k : K} {c2 : LRU K V}
    (h : lruGet c k = (none, c2)) : c2 = c := by
  unfold lruGet at h
  cases hfv : findVal c.entries k with
  | none =>
    rw [hfv] at h
    exact (congrArg Prod.snd h).symm
  | some w =>
    rw [hfv] at h
    have := congrArg Prod.fst h
    exact absurd this (by simp)

/-- `lruGet` expressed through `findVal`, for rewriting a goal. -/
theorem lruGet_eq_of_findVal {c : LRU K V} {k : K} {v : V}
    (h : findVal c.entries k = some v) :
    lruGet c k = (some v, ⟨eraseKey c.entries k ++ [(k, v)], c.maxSize⟩) := by
  unfold lruGet
  rw [h]

theorem eraseKey_length_lt {l : List (K × V)} {k : K} {v : V}
    (h : findVal l k = some v) : (eraseKey l k).length < l.length := by
  unfold findVal at h
  cases hf : l.find? (fun e => decide (e.fst = k)) with
  | none =>
    rw [hf] at h
    exact absurd h (by simp)
  | some e =>
    have hmem : e ∈ l := List.mem_of_find?_eq_some hf
    have hek : e.fst = k := by simpa using List.find?_some hf
    apply List.length_filter_lt_length_iff_exists.mpr
    exact ⟨e, hmem, by simpa using hek⟩

theorem runOp_maxSize (c : LRU K V) (op : CacheOp K V) : (runOp c op).maxSize = c.maxSize := by
  cases op with
  | get k =>
    show (lruGet c k).snd.maxSize = c.maxSize
    unfold lruGet
    cases hfv : findVal c.entries k with
    | none => rfl
    | some v => rfl
  | set k v => rfl
  | has k => rfl
  | clear => rfl

theorem runOp_size_le (c : LRU K V) (op : CacheOp K V)
    (h : lruSize c ≤ max c.maxSize 1) : lruSize (runOp c op) ≤ max c.maxSize 1 := by
  cases op with
  | get k =>
    show lruSize (lruGet c k).snd ≤ max c.maxSize 1
    unfold lruGet
    cases hfv : findVal c.entries k with
    | none => exact h
    | some v =>
      unfold lruSize at h ⊢
      dsimp only
      rw [List.length_append, List.length_singleton]
      have := eraseKey_length_lt hfv
      omega
  | set k v =>
    show lruSize (lruSet c k v) ≤ max c.maxSize 1
    unfold lruSize at h
    unfold lruSet lruSize
    dsimp only
    rw [List.length_append, List.length_singleton]
    have he1 := List.length_filter_le (fun e : K × V => decide (e.fst ≠ k)) c.entries
    split_ifs with h1 h2 h3
    · rw [List.length_drop]
      unfold eraseKey
      omega
    · unfold eraseKey at h2 ⊢
      omega
    · rw [List.length_drop]
      omega
    · omega
  | has k => exact h
  | clear =>
    show lruSize (lruClear c) ≤ max c.maxSize 1
    unfold lruClear lruSize
    simp

theorem runOps_size_le (C : ℕ) (ops : List (CacheOp K V)) :
    lruSize (runOps (emptyLRU C) ops) ≤ max C 1 := by
  suffices hgen : ∀ (ops : List (CacheOp K V)) (c : LRU K V), lruSize c ≤ max c.maxSize 1 →
      lruSize (runOps c ops) ≤ max c.maxSize 1 by
    have := hgen ops (emptyLRU C) (by unfold lruSize emptyLRU; simp)
    simpa [emptyLRU] using this
  intro ops
  induction ops with
  | nil => intro c hc; exact hc
  | cons op rest ih =>
    intro c hc
    have hstep := runOp_size_le c op hc
    have hmax := runOp_maxSize c op
    have := ih (runOp c op) (by rw [hmax]; exact hstep)
    rw [hmax] at this
    exact this

theorem lruGet_promotes {c : LRU K V} {k : K} {v : V} {c2 : LRU K V}
    (h : lruGet c k = (some v, c2)) : c2.entries.getLast? = some (k, v) := by
  unfold lruGet at h
  cases hfv : findVal c.entries k with
  | none =>
    rw [hfv] at h
    exact absurd (congrArg Prod.fst h) (by simp)
  | some w =>
    rw [hfv] at h
    have hv : some w = some v := congrArg Prod.fst h
    have hc : (⟨eraseKey c.entries k ++ [(k, w)], c.maxSize⟩ : LRU K V) = c2 :=
      congrArg Prod.snd h
    rw [← hc]
    show (eraseKey c.entries k ++ [(k, w)]).getLast? = some (k, v)
    rw [List.getLast?_concat]
    rw [Option.some.inj hv]

theorem lruSet_maxSize (c : LRU K V) (k : K) (v : V) :
    (lruSet c k v).maxSize = c.maxSize := rfl

theorem lruSet_entries_of_absent {c : LRU K V} {k : K} (v : V)
    (h : findVal c.entries k = none) :
    (lruSet c k v).entries =
      (if c.maxSize ≤ c.entries.length then c.entries.drop 1 else c.entries) ++ [(k, v)] := by
  unfold lruSet
  rw [h]
  rfl

theorem findVal_pairs_none {keys : List K} {k : K} (g : K → V) (h : k ∉ keys) :
    findVal (keys.map (fun k' => (k', g k'))) k = none := by
  rw [findVal_none_iff]
  intro e he
  obtain ⟨k', hk', rfl⟩ := List.mem_map.mp he
  exact fun hc => h (hc ▸ hk')

theorem lruSet_fold_entries (C : ℕ) (hC : 1 ≤ C) (g : K → V) :
    ∀ (keys : List K) (L : List (K × V)), keys.Nodup →
      (∀ k ∈ keys, findVal L k = none) → L.length ≤ C →
      (keys.foldl (fun c k => lruSet c k (g k)) ⟨L, C⟩).entries =
        (L ++ keys.map (fun k => (k, g k))).drop ((L.length + keys.length) - C) ∧
      (keys.foldl (fun c k => lruSet c k (g k)) ⟨L, C⟩).maxSize = C := by
  intro keys
  induction keys using List.reverseRecOn with
  | nil =>
    intro L _ _ hL
    refine ⟨?_, rfl⟩
    simp only [List.foldl_nil, List.map_nil, List.append_nil, List.length_nil]
    rw [Nat.add_zero, Nat.sub_eq_zero_of_le hL, List.drop_zero]
  | append_singleton keys k ih =>
    intro L hnd hfresh hL
    rw [List.foldl_append]
    simp only [List.foldl_cons, List.foldl_nil]
    have hnd0 : keys.Nodup := hnd.of_append_left
    have hknotin : k ∉ keys := by
      have hdisj := (List.nodup_append.mp hnd).2.2
      intro hc
      exact hdisj hc (by simp)
    have hfresh0 : ∀ k' ∈ keys, findVal L k' = none :=
      fun k' hk' => hfresh k' (List.mem_append_left _ hk')
    obtain ⟨hE, hM⟩ := ih L hnd0 hfresh0 hL
    have hdfresh : findVal (keys.foldl (fun c k' => lruSet c k' (g k')) ⟨L, C⟩).entries k
        = none := by
      rw [hE]
      apply findVal_sublist_none (List.drop_sublist _ _)
      rw [findVal_append_of_none (hfresh k (List.mem_append_right _ (by simp)))]
      exact findVal_pairs_none g hknotin
    have hlenD : ((L ++ keys.map (fun k' => (k', g k'))).drop
        ((L.length + keys.length) - C)).length = min C (L.length + keys.length) := by
      rw [List.length_drop, List.length_append, List.length_map]
      omega
    constructor
    · rw [lruSet_entries_of_absent (g k) hdfresh, hM, hE]
      by_cases hcap : C ≤ L.length + keys.length
      · rw [if_pos (by rw [hlenD]; omega)]
        rw [List.drop_drop]
        have hd : L.length + keys.length - C + 1 ≤
            (L ++ keys.map (fun k' => (k', g k'))).length := by
          rw [List.length_append, List.length_map]
          omega
        rw [← List.drop_append_of_le_length hd]
        rw [List.map_append, ← List.append_assoc]
        simp only [List.map_cons, List.map_nil]
        congr 1
        simp only [List.length_append, List.length_singleton]
        omega
      · rw [if_neg (by rw [hlenD]; omega)]
        rw [List.map_append, ← List.append_assoc]
        simp only [List.map_cons, List.map_nil, List.length_append, List.length_singleton]
        rw [Nat.sub_eq_zero_of_le (by omega), Nat.sub_eq_zero_of_le (by omega),
          List.drop_zero, List.drop_zero]
    · rw [lruSet_maxSize]
      exact hM

end LRUProofs

section SimilarityProofs

variable {R : Type} [CommRing R]

theorem computeSimilarities_mem :
    ∀ (reg : List (RegEntry R)) (c : List R) (o : FilterOptions R)
      (scores : List (ScoredTool R)),
      computeSimilarities reg c o = Except.ok scores →
      ∀ s ∈ scores, ∃ e ∈ reg, s.toolName = e.meta.tool.name ∧
        e.meta.tool.name ∉ o.exclude := by
  intro reg
  induction reg with
  | nil =>
    intro c o scores hok s hs
    unfold computeSimilarities at hok
    cases hok
    simp at hs
  | cons entry rest ih =>
    intro c o scores hok s hs
    unfold computeSimilarities at hok
    split_ifs at hok with hexc
    · obtain ⟨e, he, h1, h2⟩ := ih c o scores hok s hs
      exact ⟨e, List.mem_cons_of_mem _ he, h1, h2⟩
    · cases hdot : dotProduct c entry.emb with
      | error err =>
        rw [hdot] at hok
        exact absurd hok (by simp)
      | ok v =>
        rw [hdot] at hok
        cases hrest : computeSimilarities rest c o with
        | error err2 =>
          rw [hrest] at hok
          exact absurd hok (by simp)
        | ok scores2 =>
          rw [hrest] at hok
          have hsc := Except.ok.inj hok
          subst hsc
          rcases List.mem_cons.mp hs with rfl | h3
          · exact ⟨entry, List.mem_cons_self _ _, rfl, hexc⟩
          · obtain ⟨e, he, h1, h2⟩ := ih c o scores2 hrest s h3
            exact ⟨e, List.mem_cons_of_mem _ he, h1, h2⟩

theorem computeSimilarities_length :
    ∀ (reg : List (RegEntry R)) (c : List R) (o : FilterOptions R)
      (scores : List (ScoredTool R)),
      computeSimilarities reg c o = Except.ok scores →
      scores.length =
        (reg.filter (fun e => decide (e.meta.tool.name ∉ o.exclude))).length := by
  intro reg
  induction reg with
  | nil =>
    intro c o scores hok
    unfold computeSimilarities at hok
    cases hok
    simp
  | cons entry rest ih =>
    intro c o scores hok
    unfold computeSimilarities at hok
    split_ifs at hok with hexc
    · rw [List.filter_cons_of_neg (by simpa using hexc)]
      exact ih c o scores hok
    · cases hdot : dotProduct c entry.emb with
      | error err =>
        rw [hdot] at hok
        exact absurd hok (by simp)
      | ok v =>
        rw [hdot] at hok
        cases hrest : computeSimilarities rest c o with
        | error err2 =>
          rw [hrest] at hok
          exact absurd hok (by simp)
        | ok scores2 =>
          rw [hrest] at hok
          have hsc := Except.ok.inj hok
          subst hsc
          rw [List.filter_cons_of_pos (by simpa using hexc), List.length_cons,
            List.length_cons, ih c o scores2 hrest]

end SimilarityProofs

/-! ## Claim theorems -/

/-- C1 (counterexample): the two selection policies of `partialSort` do
not always produce the same final ranked output.  On the three-way tie
`cexTriple` with `k = 3` the min-heap policy returns the tied items in the
order second, third, first, while the full stable sort keeps the
first-encountered order — so the heap path is not stable on ties.
Moreover, on the 503-candidate pool `cexPool` (above the 500 threshold)
`partialSort` really runs the min-heap policy. -/
theorem partSort_policies_differ :
    (heapSelectPolicy Prod.snd 3 cexTriple ≠ fullSortPolicy Prod.snd 3 cexTriple ∧
      heapSelectPolicy Prod.snd 3 cexTriple = [(1, 5), (2, 5), (0, 5)] ∧
      fullSortPolicy Prod.snd 3 cexTriple = [(0, 5), (1, 5), (2, 5)]) ∧
    partSort cexPool 3 Prod.snd = heapSelectPolicy Prod.snd 3 cexPool := by
  constructor
  · exact ⟨by decide, by decide, by decide⟩
  · have hlen : cexPool.length = 503 := by simp [cexPool]
    unfold partSort
    rw [hlen]
    norm_num
    rfl

/-- C1 (amended): the two selection policies of `partialSort` — the full
comparison sort and the bounded min-heap — produce the same final ranked
output whenever the candidates' scores are pairwise distinct; in that case
`partialSort` itself always equals the sort-and-slice policy, for every
`k`.  (On tied scores the heap path may permute equal-score items, see the
counterexample.) -/
theorem partSort_policies_agree_of_distinct {α R : Type} [Inhabited α] [LinearOrder R]
    (items : List α) (k : ℤ) (f : α → R) (hnd : (items.map f).Nodup) :
    partSort items k f = fullSortPolicy f k items ∧
    (1 ≤ k → heapSelectPolicy f k.toNat items = fullSortPolicy f k items) :=
  ⟨partSort_eq_fullSortPolicy hnd,
    fun hk => heapPolicy_eq_take_sortDesc (by omega) hnd⟩

/-- Witness for the amended C1 at a concrete two-element pool with
distinct scores and `k = 1`. -/
theorem partSort_policies_agree_witness :
    (([(0, 3), (1, 7)].map (Prod.snd : ℕ × ℕ → ℕ)).Nodup) ∧
    partSort [(0, 3), (1, 7)] 1 Prod.snd = fullSortPolicy Prod.snd 1 [(0, 3), (1, 7)] ∧
    heapSelectPolicy Prod.snd 1 [(0, 3), (1, 7)] = fullSortPolicy Prod.snd 1 [(0, 3), (1, 7)] := by
  have h := partSort_policies_agree_of_distinct [(0, 3), (1, 7)] 1 Prod.snd (by decide)
  exact ⟨by decide, h.1, h.2 (by decide)⟩

/-- C2: a candidate whose name is in `alwaysInclude` is in the Selector's
output whatever its score (in particular when it is strictly below
`minScore`); the output is exactly the forced candidates in their original
encounter order (the order-preserving filter of the input) followed by a
block `E` of eligible candidates in score-descending order, each drawn
from the input, not forced, and scoring at least `minScore`. -/
theorem selectTools_forced_kept {R : Type} [LinearOrder R] [Inhabited R]
    (scores : List (ScoredTool R)) (o : FilterOptions R) :
    (∀ s ∈ scores, s.toolName ∈ o.alwaysInclude → s ∈ selectTools scores o) ∧
    (∃ E, selectTools scores o =
        scores.filter (fun s => decide (s.toolName ∈ o.alwaysInclude)) ++ E ∧
      List.Pairwise (fun a b : ScoredTool R => b.score ≤ a.score) E ∧
      ∀ s ∈ E, s ∈ scores ∧ s.toolName ∉ o.alwaysInclude ∧ o.minScore ≤ s.score) := by
  constructor
  · intro s hs hmem
    rw [selectTools_eq]
    exact List.mem_append_left _ (List.mem_filter.mpr ⟨hs, by simpa using hmem⟩)
  · refine ⟨_, selectTools_eq scores o, partSort_sorted _ _ _, ?_⟩
    intro s hs
    have hf := List.mem_filter.mp (partSort_mem hs)
    have hc : s.toolName ∉ o.alwaysInclude ∧ o.minScore ≤ s.score := by simpa using hf.2
    exact ⟨hf.1, hc.1, hc.2⟩

/-- Witness for C2 at a concrete input over `ℚ`: a forced tool scoring
`0`, strictly below `minScore = 1/2`, is still in the output. -/
theorem selectTools_forced_kept_witness :
    (⟨"s1", "a", ⟨"a", "d", none, none, none⟩, (0 : ℚ)⟩ : ScoredTool ℚ) ∈
      selectTools
        [⟨"s1", "a", ⟨"a", "d", none, none, none⟩, (0 : ℚ)⟩,
         ⟨"s1", "b", ⟨"b", "d", none, none, none⟩, (1 : ℚ)⟩]
        ⟨1, 1/2, 3, ["a"], [], 500⟩ := by
  refine (selectTools_forced_kept
      [⟨"s1", "a", ⟨"a", "d", none, none, none⟩, (0 : ℚ)⟩,
       ⟨"s1", "b", ⟨"b", "d", none, none, none⟩, (1 : ℚ)⟩]
      ⟨1, 1/2, 3, ["a"], [], 500⟩).1 _ (by decide) (by decide)

/-- C5: the Selector's output length never exceeds `topK` (clamped below
at `0`, matching the claim's own `topK <= 0` clause) plus the number of
forced candidates; and with `topK ≤ 0` the output is exactly the forced
candidates in encounter order. -/
theorem selectTools_length_le {R : Type} [LinearOrder R] [Inhabited R]
    (scores : List (ScoredTool R)) (o : FilterOptions R) :
    (((selectTools scores o).length : ℤ) ≤
      max o.topK 0 +
        (scores.filter (fun s => decide (s.toolName ∈ o.alwaysInclude))).length) ∧
    (o.topK ≤ 0 → selectTools scores o =
      scores.filter (fun s => decide (s.toolName ∈ o.alwaysInclude))) := by
  constructor
  · rw [selectTools_eq, List.length_append]
    have h := partSort_length_le
      (scores.filter (fun s => decide (s.toolName ∉ o.alwaysInclude ∧ o.minScore ≤ s.score)))
      (max 0 (o.topK -
        (scores.filter (fun s => decide (s.toolName ∈ o.alwaysInclude))).length))
      (fun t : ScoredTool R => t.score)
    push_cast
    omega
  · intro htop
    rw [selectTools_eq]
    have hz : partSort
        (scores.filter (fun s => decide (s.toolName ∉ o.alwaysInclude ∧ o.minScore ≤ s.score)))
        (max 0 (o.topK -
          (scores.filter (fun s => decide (s.toolName ∈ o.alwaysInclude))).length))
        (fun t : ScoredTool R => t.score) = [] := by
      unfold partSort
      rw [if_pos (by omega)]
    rw [hz, List.append_nil]

/-- Witness for C5 at a concrete input over `ℚ` with `topK = 0`: the
output is exactly the forced entry. -/
theorem selectTools_length_le_witness :
    selectTools
        [⟨"s1", "a", ⟨"a", "d", none, none, none⟩, (0 : ℚ)⟩,
         ⟨"s1", "b", ⟨"b", "d", none, none, none⟩, (1 : ℚ)⟩]
        ⟨0, 1/2, 3, ["a"], [], 500⟩ =
      [⟨"s1", "a", ⟨"a", "d", none, none, none⟩, (0 : ℚ)⟩] := by
  rw [(selectTools_length_le
      [⟨"s1", "a", ⟨"a", "d", none, none, none⟩, (0 : ℚ)⟩,
       ⟨"s1", "b", ⟨"b", "d", none, none, none⟩, (1 : ℚ)⟩]
      ⟨0, 1/2, 3, ["a"], [], 500⟩).2 (by decide)]
  decide

/-- C3: a tool name in the `exclude` set never reaches the Selector: it is
absent from `computeSimilarities`' output (the Selector's candidate input)
and hence from the Selector's result, even when the same name is also in
`alwaysInclude` (no hypothesis restricts `alwaysInclude`). -/
theorem exclude_wins_over_alwaysInclude {R : Type} [LinearOrderedField R] [Inhabited R]
    (reg : List (RegEntry R)) (ctxEmb : List R) (o : FilterOptions R) (nm : String)
    (scores : List (ScoredTool R)) (hx : nm ∈ o.exclude)
    (hok : computeSimilarities reg ctxEmb o = Except.ok scores) :
    (∀ s ∈ scores, s.toolName ≠ nm) ∧
    ∀ s ∈ selectTools scores o, s.toolName ≠ nm := by
  have h1 : ∀ s ∈ scores, s.toolName ≠ nm := by
    intro s hs
    obtain ⟨e, he, hname, hexc⟩ := computeSimilarities_mem reg ctxEmb o scores hok s hs
    rw [hname]
    exact fun hc => hexc (hc ▸ hx)
  exact ⟨h1, fun s hs => h1 s (selectTools_subset hs)⟩

/-- Witness for C3: the registry `regW` holds one tool `t1` which is both
excluded and always-included; the similarity pass outputs nothing. -/
theorem exclude_wins_witness :
    ("t1" ∈ optsW.exclude) ∧
    computeSimilarities regW [] optsW = Except.ok [] ∧
    (∀ s ∈ ([] : List (ScoredTool ℚ)), s.toolName ≠ "t1") ∧
    ∀ s ∈ selectTools ([] : List (ScoredTool ℚ)) optsW, s.toolName ≠ "t1" := by
  have h := exclude_wins_over_alwaysInclude regW [] optsW "t1" [] (by decide) (by rfl)
  exact ⟨by decide, by rfl, h.1, h.2⟩

theorem filterM_hit_sim (embedFn : String → List ℝ) (embedCost : ℕ) (st : FilterState)
    (input : FilterInput) (opts : FilterOptions ℝ) (emb : List ℝ)
    (scores : List (ScoredTool ℝ)) (hinit : st.isInit = true)
    (hfind : findVal st.cache.entries
      (hashString (buildContextString input opts.contextMessages opts.maxContextTokens)) =
        some emb)
    (hsim : computeSimilarities st.reg emb opts = Except.ok scores) :
    ∃ st3, filterM embedFn embedCost st input opts =
      Except.ok (st3, ⟨selectTools scores opts, 0, st.reg.length⟩) := by
  refine ⟨⟨st.isInit, st.reg,
    eraseKey st.cache.entries
        (hashString (buildContextString input opts.contextMessages opts.maxContextTokens)) ++
      [(hashString (buildContextString input opts.contextMessages opts.maxContextTokens), emb)],
    st.cache.maxSize⟩, ?_⟩
  unfold filterM
  rw [if_neg (by rw [hinit]; simp)]
  dsimp only
  rw [lruGet_eq_of_findVal hfind]
  dsimp only
  rw [hsim]

/-- C6: two-run determinism of the cached pipeline.  If a `filter` call on
an initialized instance succeeds, an immediately repeated call with the
identical context input (no intervening eviction or clear) succeeds with
`embeddingTime = 0` (a cache hit) and an identical ranked tools list with
identical scores. -/
theorem filter_second_call_deterministic (embedFn : String → List ℝ) (embedCost : ℕ)
    (st st1 : FilterState) (input : FilterInput) (opts : FilterOptions ℝ)
    (r1 : FilterResultM)
    (h : filterM embedFn embedCost st input opts = Except.ok (st1, r1)) :
    ∃ st3, filterM embedFn embedCost st1 input opts =
      Except.ok (st3, ⟨r1.tools, 0, r1.metrics.toolsEvaluated⟩) := by
  unfold filterM at h
  by_cases hinit : st.isInit = false
  · rw [if_pos hinit] at h
    exact absurd h (by simp)
  · rw [if_neg hinit] at h
    dsimp only at h
    rcases hget : lruGet st.cache
        (hashString (buildContextString input opts.contextMessages opts.maxContextTokens))
      with ⟨ov, c2⟩
    rw [hget] at h
    rcases ov with - | emb
    all_goals dsimp only at h
    · cases hsim : computeSimilarities st.reg
          ((normalizeVector
            (embedFn (buildContextString input opts.contextMessages opts.maxContextTokens))
            true).fst) opts with
      | error err =>
        rw [hsim] at h
        exact absurd h (by simp)
      | ok scores =>
        rw [hsim] at h
        have hpair := Except.ok.inj h
        have hinit0 : st.isInit = st1.isInit := congrArg (fun p => p.fst.isInit) hpair
        have hinit1 : st1.isInit = true := by
          rw [← hinit0]
          revert hinit
          cases st.isInit <;> simp
        have hreg1 : st.reg = st1.reg := congrArg (fun p => p.fst.reg) hpair
        have hcache1 : lruSet c2
            (hashString (buildContextString input opts.contextMessages opts.maxContextTokens))
            ((normalizeVector
              (embedFn (buildContextString input opts.contextMessages opts.maxContextTokens))
              true).fst) = st1.cache := congrArg (fun p => p.fst.cache) hpair
        have htools : selectTools scores opts = r1.tools :=
          congrArg (fun p => p.snd.tools) hpair
        have hte : st.reg.length = r1.metrics.toolsEvaluated :=
          congrArg (fun p => p.snd.metrics.toolsEvaluated) hpair
        have hfind1 : findVal st1.cache.entries
            (hashString (buildContextString input opts.contextMessages opts.maxContextTokens)) =
              some ((normalizeVector
                (embedFn (buildContextString input opts.contextMessages opts.maxContextTokens))
                true).fst) := by
          rw [← hcache1]
          exact lruSet_findVal c2 _ _
        have hsim1 : computeSimilarities st1.reg
            ((normalizeVector
              (embedFn (buildContextString input opts.contextMessages opts.maxContextTokens))
              true).fst) opts = Except.ok scores := by
          rw [← hreg1]
          exact hsim
        obtain ⟨st3, hcall⟩ := filterM_hit_sim embedFn embedCost st1 input opts _ scores
          hinit1 hfind1 hsim1
        refine ⟨st3, ?_⟩
        rw [← htools, ← hte]
        rw [← hreg1] at hcall
        exact hcall
    · cases hsim : computeSimilarities st.reg emb opts with
      | error err =>
        rw [hsim] at h
        exact absurd h (by simp)
      | ok scores =>
        rw [hsim] at h
        have hpair := Except.ok.inj h
        have hinit0 : st.isInit = st1.isInit := congrArg (fun p => p.fst.isInit) hpair
        have hinit1 : st1.isInit = true := by
          rw [← hinit0]
          revert hinit
          cases st.isInit <;> simp
        have hreg1 : st.reg = st1.reg := congrArg (fun p => p.fst.reg) hpair
        have hcache1 : c2 = st1.cache := congrArg (fun p => p.fst.cache) hpair
        have htools : selectTools scores opts = r1.tools :=
          congrArg (fun p => p.snd.tools) hpair
        have hte : st.reg.length = r1.metrics.toolsEvaluated :=
          congrArg (fun p => p.snd.metrics.toolsEvaluated) hpair
        have hfind1 : findVal st1.cache.entries
            (hashString (buildContextString input opts.contextMessages opts.maxContextTokens)) =
              some emb := by
          rw [← hcache1]
          exact (lruGet_hit hget).1
        have hsim1 : computeSimilarities st1.reg emb opts = Except.ok scores := by
          rw [← hreg1]
          exact hsim
        obtain ⟨st3, hcall⟩ := filterM_hit_sim embedFn embedCost st1 input opts emb scores
          hinit1 hfind1 hsim1
        refine ⟨st3, ?_⟩
        rw [← htools, ← hte]
        rw [← hreg1] at hcall
        exact hcall

/-- Witness for C6: a concrete `filterM` call on `stX` run twice: the
first call succeeds, and the repeated call on the resulting state returns
the same tools with `embeddingTime = 0`. -/
theorem filter_second_call_witness :
    ∃ st1 r1, filterM (fun _ => []) 7 stX (FilterInput.raw "a") optsX = Except.ok (st1, r1) ∧
      ∃ st3, filterM (fun _ => []) 7 st1 (FilterInput.raw "a") optsX =
        Except.ok (st3, ⟨r1.tools, 0, r1.metrics.toolsEvaluated⟩) := by
  refine ⟨_, _, rfl, ?_⟩
  exact filter_second_call_deterministic (fun _ => []) 7 stX _ (FilterInput.raw "a") optsX _ rfl

/-- C10 (implicit): on every successful `filter` call the returned
`metrics.toolsEvaluated` equals the total registry size
(`toolEmbeddings.size`), even though the scored-candidate list only counts
the non-excluded entries: the scored list's length plus the number of
excluded registry entries equals `toolsEvaluated`, so the metric does not
subtract excluded tools. -/
theorem filter_toolsEvaluated_counts_registry (embedFn : String → List ℝ) (embedCost : ℕ)
    (st : FilterState) (input : FilterInput) (opts : FilterOptions ℝ)
    (st2 : FilterState) (res : FilterResultM)
    (h : filterM embedFn embedCost st input opts = Except.ok (st2, res)) :
    res.metrics.toolsEvaluated = st.reg.length ∧
    ∀ emb scores, computeSimilarities st.reg emb opts = Except.ok scores →
      scores.length +
          (st.reg.filter (fun e => decide (e.meta.tool.name ∈ opts.exclude))).length =
        res.metrics.toolsEvaluated := by
  have hTE : res.metrics.toolsEvaluated = st.reg.length := by
    unfold filterM at h
    by_cases hinit : st.isInit = false
    · rw [if_pos hinit] at h
      exact absurd h (by simp)
    · rw [if_neg hinit] at h
      dsimp only at h
      rcases hget : lruGet st.cache
          (hashString (buildContextString input opts.contextMessages opts.maxContextTokens))
        with ⟨ov, c2⟩
      rw [hget] at h
      rcases ov with - | emb
      all_goals dsimp only at h
      · cases hsim : computeSimilarities st.reg
            ((normalizeVector
              (embedFn (buildContextString input opts.contextMessages opts.maxContextTokens))
              true).fst) opts with
        | error err =>
          rw [hsim] at h
          exact absurd h (by simp)
        | ok scores =>
          rw [hsim] at h
          have h4 : st.reg.length = res.metrics.toolsEvaluated :=
            congrArg (fun p => p.snd.metrics.toolsEvaluated) (Except.ok.inj h)
          exact h4.symm
      · cases hsim : computeSimilarities st.reg emb opts with
        | error err =>
          rw [hsim] at h
          exact absurd h (by simp)
        | ok scores =>
          rw [hsim] at h
          have h4 : st.reg.length = res.metrics.toolsEvaluated :=
            congrArg (fun p => p.snd.metrics.toolsEvaluated) (Except.ok.inj h)
          exact h4.symm
  refine ⟨hTE, ?_⟩
  intro emb scores hok
  rw [hTE, computeSimilarities_length st.reg emb opts scores hok]
  have hperm := List.filter_append_perm
    (fun e : RegEntry ℝ => decide (e.meta.tool.name ∈ opts.exclude)) st.reg
  have hlen := hperm.length_eq
  rw [List.length_append] at hlen
  have hnot : st.reg.filter (fun e => !decide (e.meta.tool.name ∈ opts.exclude)) =
      st.reg.filter (fun e => decide (e.meta.tool.name ∉ opts.exclude)) := by
    apply List.filter_congr
    intro e he
    simp
  rw [hnot] at hlen
  omega

/-- Witness for C10: a concrete successful filter call on `stX` (cache
hit, options `optsX` excluding the only registered tool) reports
`toolsEvaluated` equal to the registry size `1`. -/
theorem filter_toolsEvaluated_witness :
    ∃ st2 res,
      filterM (fun _ => []) 7 stX (FilterInput.raw "a") optsX = Except.ok (st2, res) ∧
      res.metrics.toolsEvaluated = stX.reg.length := by
  refine ⟨_, _, rfl, ?_⟩
  exact (filter_toolsEvaluated_counts_registry (fun _ => []) 7 stX (FilterInput.raw "a")
    optsX _ _ rfl).1

/-- C4 (counterexample): the claim says the cache size never exceeds the
configured capacity `C`, but a cache constructed with capacity `0` still
admits one entry — `set` only evicts an existing first key before
appending, so a single `set` on an empty capacity-`0` cache reaches size
`1 > 0`. -/
theorem lru_capacity_zero_exceeded :
    ¬ lruSize (runOps (emptyLRU (K := ℕ) (V := ℕ) 0) [CacheOp.set 1 1]) ≤ 0 := by
  decide

/-- C4 (amended): for every operation sequence on a cache of capacity `C`
the size never exceeds `max C 1` (capacity `0` still admits one entry);
a `get` hit promotes the accessed entry to the most-recently-used (last)
position; and after inserting more than `C ≥ 1` distinct keys without
repeats into an empty cache, every key of the evicted initial segment —
in particular the least-recently-touched one — has `has` return `false`. -/
theorem lru_invariants_amended {K V : Type} [DecidableEq K]
    (C : ℕ) (ops : List (CacheOp K V)) (g : K → V) (keys : List K)
    (c c2 : LRU K V) (k : K) (v : V)
    (hget : lruGet c k = (some v, c2))
    (hnd : keys.Nodup) (hC : 1 ≤ C) (hover : C < keys.length) :
    lruSize (runOps (emptyLRU C) ops) ≤ max C 1 ∧
    c2.entries.getLast? = some (k, v) ∧
    ∀ k0 ∈ keys.take (keys.length - C),
      lruHas (runOps (emptyLRU C) (keys.map (fun k2 => CacheOp.set k2 (g k2)))) k0
        = false := by
  refine ⟨runOps_size_le C ops, lruGet_promotes hget, ?_⟩
  intro k0 hk0
  have hfold := lruSet_fold_entries C hC g keys [] hnd (fun _ _ => rfl) (by simp)
  have hentries :
      (runOps (emptyLRU C) (keys.map (fun k2 => CacheOp.set k2 (g k2)))).entries
        = (keys.drop (keys.length - C)).map (fun k2 => (k2, g k2)) := by
    show ((keys.map (fun k2 => CacheOp.set k2 (g k2))).foldl runOp (emptyLRU C)).entries = _
    rw [List.foldl_map]
    have hbody : (keys.foldl (fun c2 k2 => runOp c2 (CacheOp.set k2 (g k2)))
        (emptyLRU C)).entries
        = (keys.foldl (fun c2 k2 => lruSet c2 k2 (g k2))
            (⟨[], C⟩ : LRU K V)).entries := rfl
    rw [hbody, hfold.1]
    rw [List.nil_append, List.length_nil, Nat.zero_add]
    rw [← List.map_drop]
  have hnd2 : (keys.take (keys.length - C) ++ keys.drop (keys.length - C)).Nodup := by
    rw [List.take_append_drop]
    exact hnd
  have hnotin : k0 ∉ keys.drop (keys.length - C) :=
    fun hmem => (List.nodup_append.mp hnd2).2.2 hk0 hmem
  show (findVal (runOps (emptyLRU C)
      (keys.map (fun k2 => CacheOp.set k2 (g k2)))).entries k0).isSome = false
  rw [hentries, findVal_pairs_none g hnotin]
  rfl

/-- Witness for C4: capacity `2`, a concrete operation list, a `get` hit on
a two-entry cache, and three distinct inserted keys `[1, 2, 3]` of which
the first is evicted. -/
theorem lru_invariants_witness :
    lruSize (runOps (emptyLRU (K := ℕ) (V := ℕ) 2)
        [CacheOp.set 1 1, CacheOp.set 2 2, CacheOp.set 3 3]) ≤ max 2 1 ∧
    (⟨[(2, 20), (1, 10)], 5⟩ : LRU ℕ ℕ).entries.getLast? = some (1, 10) ∧
    ∀ k0 ∈ [1, 2, 3].take ([1, 2, 3].length - 2),
      lruHas (runOps (emptyLRU 2)
        ([1, 2, 3].map (fun k2 => CacheOp.set k2 (id k2)))) k0 = false :=
  lru_invariants_amended 2 [CacheOp.set 1 1, CacheOp.set 2 2, CacheOp.set 3 3] id
    [1, 2, 3] ⟨[(1, 10), (2, 20)], 5⟩ ⟨[(2, 20), (1, 10)], 5⟩ 1 10
    (by rfl) (by decide) (by decide) (by decide)

theorem foldl_add_sq (v : List ℝ) :
    ∀ c : ℝ, v.foldl (fun acc x => acc + x * x) c = c + (v.map (fun x => x * x)).sum := by
  induction v with
  | nil => intro c; simp
  | cons x xs ih =>
    intro c
    simp only [List.foldl_cons, List.map_cons, List.sum_cons, ih]
    ring

theorem sumSq_eq_sum_map (v : List ℝ) : sumSq v = (v.map (fun x => x * x)).sum := by
  unfold sumSq
  rw [foldl_add_sq, zero_add]

theorem sumSq_nonneg (v : List ℝ) : 0 ≤ sumSq v := by
  rw [sumSq_eq_sum_map]
  apply List.sum_nonneg
  intro x hx
  obtain ⟨y, _, rfl⟩ := List.mem_map.mp hx
  exact mul_self_nonneg y

theorem sumSq_div (v : List ℝ) (m : ℝ) :
    sumSq (v.map (fun x => x / m)) = sumSq v * (m⁻¹ * m⁻¹) := by
  rw [sumSq_eq_sum_map, sumSq_eq_sum_map, List.map_map]
  have h : ((fun x => x * x) ∘ fun x : ℝ => x / m)
      = fun x : ℝ => (x * x) * (m⁻¹ * m⁻¹) := by
    funext x
    simp only [Function.comp_apply, div_eq_mul_inv]
    ring
  rw [h, List.sum_map_mul_right]

theorem normalizeVector_zero {w : List ℝ} (ip : Bool) (hw : magnitude w = 0) :
    normalizeVector w ip = (w, w) := by
  simp [normalizeVector, hw]

theorem normalizeVector_nonzero {v : List ℝ} (ip : Bool) (hm : magnitude v ≠ 0) :
    normalizeVector v ip =
      (v.map (fun x => x / magnitude v),
        if ip then v.map (fun x => x / magnitude v) else v) := by
  cases ip <;> simp [normalizeVector, hm]

/-- C7: `normalizeVector` returns the zero-magnitude input unchanged (both
the returned array and the buffer are the very input); on a vector of
nonzero magnitude it returns the componentwise division by the Euclidean
magnitude, whose magnitude in the exact real model is 1; and with
`inPlace = false` the input buffer keeps its original contents. -/
theorem normalizeVector_spec (v w : List ℝ) (ip : Bool)
    (hm : magnitude v ≠ 0) (hw : magnitude w = 0) :
    normalizeVector w ip = (w, w) ∧
    (normalizeVector v ip).1 = v.map (fun x => x / magnitude v) ∧
    magnitude (normalizeVector v ip).1 = 1 ∧
    (normalizeVector v false).2 = v := by
  refine ⟨normalizeVector_zero ip hw, ?_, ?_, ?_⟩
  · rw [normalizeVector_nonzero ip hm]
  · rw [normalizeVector_nonzero ip hm]
    have hS : sumSq v = magnitude v * magnitude v :=
      (Real.mul_self_sqrt (sumSq_nonneg v)).symm
    have h2 : sumSq (v.map (fun x => x / magnitude v)) = 1 := by
      rw [sumSq_div, hS]
      field_simp
    show Real.sqrt (sumSq (v.map (fun x => x / magnitude v))) = 1
    rw [h2, Real.sqrt_one]
  · rw [normalizeVector_nonzero false hm]
    rfl

/-- Witness for C7: `v = [3, 4]` (magnitude 5) and the zero vector `[0]`. -/
theorem normalizeVector_spec_witness :
    normalizeVector [0] false = ([0], [0]) ∧
    (normalizeVector [3, 4] false).1 = [3, 4].map (fun x => x / magnitude [3, 4]) ∧
    magnitude (normalizeVector [3, 4] false).1 = 1 ∧
    (normalizeVector [3, 4] false).2 = [3, 4] :=
  normalizeVector_spec [3, 4] [0] false
    (by
      unfold magnitude
      exact ne_of_gt (Real.sqrt_pos.mpr (by norm_num [sumSq])))
    (by simp [magnitude, sumSq])

theorem unrolled_sum_eq {R : Type} [CommRing R] (g : ℕ → R) (q : ℕ) :
    (∑ j in Finset.range q, (g (4 * j) + g (4 * j + 1) + g (4 * j + 2) + g (4 * j + 3)))
      = ∑ i in Finset.range (4 * q), g i := by
  induction q with
  | zero => simp
  | succ n ih =>
    rw [Finset.sum_range_succ, ih]
    have h4 : ∑ i in Finset.range (4 * (n + 1)), g i
        = (((∑ i in Finset.range (4 * n), g i) + g (4 * n) + g (4 * n + 1))
            + g (4 * n + 2)) + g (4 * n + 3) := by
      rw [show 4 * (n + 1) = (4 * n + 3) + 1 by ring, Finset.sum_range_succ,
        show 4 * n + 3 = (4 * n + 2) + 1 by ring, Finset.sum_range_succ,
        show 4 * n + 2 = (4 * n + 1) + 1 by ring, Finset.sum_range_succ,
        show 4 * n + 1 = (4 * n) + 1 by ring, Finset.sum_range_succ]
    rw [h4]
    ring

theorem unrolled_chunks {R : Type} [CommRing R] (a b : List R) (q : ℕ) :
    (∑ j in Finset.range q,
        (a.getD (4 * j) 0 * b.getD (4 * j) 0 + a.getD (4 * j + 1) 0 * b.getD (4 * j + 1) 0 +
          a.getD (4 * j + 2) 0 * b.getD (4 * j + 2) 0 +
          a.getD (4 * j + 3) 0 * b.getD (4 * j + 3) 0))
      = ∑ i in Finset.range (4 * q), a.getD i 0 * b.getD i 0 :=
  unrolled_sum_eq (fun i => a.getD i 0 * b.getD i 0) q

theorem dotProduct_ok {R : Type} [CommRing R] {a b : List R}
    (h : a.length = b.length) :
    dotProduct a b = Except.ok (dotSpec a b) := by
  unfold dotProduct
  rw [if_neg (by simp [h])]
  dsimp only
  congr 1
  rw [show (a.length - a.length % 4) / 4 = a.length / 4 by omega]
  rw [unrolled_chunks]
  rw [show a.length - a.length % 4 = 4 * (a.length / 4) by omega]
  exact Finset.sum_range_add_sum_Ico _ (by omega)

theorem dotProduct_error_iff {R : Type} [CommRing R] (a b : List R) :
    dotProduct a b = Except.error VecError.dimMismatch ↔ a.length ≠ b.length := by
  unfold dotProduct
  split_ifs with h
  · simp [h]
  · simp [h]

theorem dotSpec_comm {R : Type} [CommRing R] {a b : List R}
    (h : a.length = b.length) : dotSpec a b = dotSpec b a := by
  unfold dotSpec
  rw [h]
  exact Finset.sum_congr rfl (fun i _ => mul_comm _ _)

/-- C8: `dotProduct` fails with the dimension-mismatch error exactly when
the two vectors differ in length; on equal lengths the four-way unrolled
accumulation equals the plain dot product `sum of a[i]*b[i]`; and the
function is symmetric in its arguments. -/
theorem dotProduct_spec {R : Type} [CommRing R] (a b : List R) :
    (dotProduct a b = Except.error VecError.dimMismatch ↔ a.length ≠ b.length) ∧
    (a.length = b.length → dotProduct a b = Except.ok (dotSpec a b)) ∧
    dotProduct a b = dotProduct b a := by
  refine ⟨dotProduct_error_iff a b, fun h => dotProduct_ok h, ?_⟩
  by_cases h : a.length = b.length
  · rw [dotProduct_ok h, dotProduct_ok h.symm, dotSpec_comm h]
  · rw [(dotProduct_error_iff a b).mpr h, (dotProduct_error_iff b a).mpr (fun e => h e.symm)]

/-- Witness for C8: a concrete five-component rational pair, with the
equal-length hypothesis discharged by computation; the unrolled
accumulation makes one full chunk of four plus one remainder term. -/
theorem dotProduct_spec_witness :
    dotProduct ([1, 2, 3, 4, 5] : List ℤ) [2, 3, 4, 5, 6] = Except.ok 70 ∧
    dotProduct ([1, 2, 3, 4, 5] : List ℤ) [2, 3, 4, 5, 6]
      = dotProduct [2, 3, 4, 5, 6] [1, 2, 3, 4, 5] := by
  refine ⟨?_, (dotProduct_spec ([1, 2, 3, 4, 5] : List ℤ) [2, 3, 4, 5, 6]).2.2⟩
  rw [(dotProduct_spec ([1, 2, 3, 4, 5] : List ℤ) [2, 3, 4, 5, 6]).2.1 (by decide)]
  exact congrArg Except.ok (by decide)

theorem jsSliceLast_eq_lastN {α : Type} (l : List α) {m : ℕ} (hm : 1 ≤ m) :
    jsSliceLast l m = lastN l m := by
  unfold jsSliceLast lastN
  rw [if_neg (by omega)]
  show List.rtake l m = (l.reverse.take m).reverse
  exact List.rtake_eq_reverse_take_reverse (l := l) (n := m)

/-- C9 (counterexample): the claimed rendering is wrong on two points.
A `tool`-role message is rendered with prefix `Assistant`, not with its
capitalized role name (`msg.role === 'user' ? 'User' : 'Assistant'`); and
with `contextMessages = 0` the slice argument is `-0 = 0`, so
`slice(-0)` keeps the whole history rather than the last `0` entries. -/
theorem buildContextString_claim_false :
    buildContextString (FilterInput.messages [⟨Role.tool, "x"⟩]) 1 500
      ≠ buildFromMessagesClaim [⟨Role.tool, "x"⟩] 1 500 ∧
    buildContextString (FilterInput.messages [⟨Role.user, "x"⟩]) 0 500
      ≠ buildFromMessagesClaim [⟨Role.user, "x"⟩] 0 500 := by
  constructor <;> decide

/-- C9 (amended): for a positive message window `m ≥ 1`,
`buildContextString` on a message history equals the claimed pipeline with
the rendering corrected: drop `system` entries, keep the last `m` remaining
entries in order, prefix `user` entries with `User` and every other entry
(including `tool`) with `Assistant`, join with blank lines, then apply the
token-budget truncation. -/
theorem buildContextString_messages_amended (msgs : List ChatMessage)
    (m maxTokens : ℕ) (hm : 1 ≤ m) :
    buildContextString (FilterInput.messages msgs) m maxTokens
      = buildFromMessagesAmended msgs m maxTokens := by
  unfold buildContextString buildFromMessagesAmended
  dsimp only
  rw [jsSliceLast_eq_lastN _ hm]

/-- Witness for C9 (amended): a four-message history with a `system` entry,
window `m = 2`. -/
theorem buildContextString_messages_witness :
    buildContextString (FilterInput.messages
        [⟨Role.system, "s"⟩, ⟨Role.user, "a"⟩, ⟨Role.assistant, "b"⟩, ⟨Role.tool, "c"⟩])
        2 500
      = buildFromMessagesAmended
        [⟨Role.system, "s"⟩, ⟨Role.user, "a"⟩, ⟨Role.assistant, "b"⟩, ⟨Role.tool, "c"⟩]
        2 500 :=
  buildContextString_messages_amended
    [⟨Role.system, "s"⟩, ⟨Role.user, "a"⟩, ⟨Role.assistant, "b"⟩, ⟨Role.tool, "c"⟩]
    2 500 (by decide)

end MCPFilter
